import Mathlib

/-!
# Shortwave frequency-assignment registry: shallow embedding

This file embeds the registry core of the `shortwave` peer-to-peer radio
node (files `src/types.rs`, `src/crypto.rs`, `src/state.rs`) in Lean 4 and
proves the claimed properties of its specification.

Modelling conventions:
* `BigDecimal` values (the `bigdecimal` crate) are pairs of an
  arbitrary-precision signed integer `intVal` and an `Int` `scale`; the
  represented value is `intVal * 10 ^ (-scale)`.  The crate's plain
  (non-scientific) `Display` algorithm is embedded byte for byte.
* UUIDs are modelled as `Nat` (only equality and `toString` are used).
* `chrono` timestamps are modelled as `Int` (seconds); `to_rfc3339` is an
  injective rendering, modelled as `toString`.
* Ed25519 is idealized symbolically (EUF-CMA with deterministic RFC 8032
  signatures): the space of wire strings that can sit in a key or signature
  field is `B64`, with `B64.key k` the encoding of the `k`-th valid public
  key, `B64.sig (k, m)` the encoding of the signature by keypair `k` over
  message `m`, and `B64.other s` any other string.  The encodings are
  injective and pairwise disjoint (32-byte keys vs 64-byte signatures), so
  equality of `B64` values coincides with equality of the underlying strings.
* The `tokio` broadcast channel for registry events is modelled as the list
  of events sent so far (`events` field); claims only talk about which
  events an operation emits.
* `HashMap<String, StationAssignment>` is modelled as an association list
  with unique keys; insertion replaces any entry with the same key.
-/

/-! ## Decimal digit strings -/

/-- Little-endian base-10 digits of a natural number, with explicit fuel so
that the kernel can evaluate it.  `digitsRevAux fuel n` agrees with
`Nat.digits 10 n` whenever `n ≤ fuel`. -/
def digitsRevAux : Nat → Nat → List Nat
  | 0, _ => []
  | fuel + 1, n => if n = 0 then [] else n % 10 :: digitsRevAux fuel (n / 10)

/-- Little-endian base-10 digits of a natural number. -/
def digitsRev (n : Nat) : List Nat := digitsRevAux n n

/-- The base-10 numeral of a natural number as a list of characters,
most-significant digit first; `"0"` for zero.  This is the embedding of
`num_bigint`'s `to_str_radix(10)` on the absolute value. -/
def decStr (n : Nat) : List Char :=
  if n = 0 then ['0'] else ((digitsRev n).map Nat.digitChar).reverse

/-! ## BigDecimal and its Display / normalization (`src/types.rs`) -/

/-- An arbitrary-precision decimal: the represented value is
`intVal * 10 ^ (-scale)`.  Embeds `bigdecimal::BigDecimal`. -/
structure BigDecimal where
  intVal : Int
  scale : Int
deriving DecidableEq

/-- The rational value represented by a `BigDecimal`. -/
def BigDecimal.val (d : BigDecimal) : ℚ :=
  (d.intVal : ℚ) * (10 : ℚ) ^ (-d.scale)

/-- The character string produced by `bigdecimal`'s plain `Display`
implementation: the absolute numeral with the decimal point inserted
according to `scale` (zeros appended for a negative scale, a leading
`0.` with zero padding when the scale exceeds the digit count), prefixed
with `-` for negative numbers. -/
def BigDecimal.toChars (d : BigDecimal) : List Char :=
  let absInt := decStr d.intVal.natAbs
  let len : Int := absInt.length
  let ba : List Char × List Char :=
    if len ≤ d.scale then
      (['0'], List.replicate (d.scale - len).toNat '0' ++ absInt)
    else if d.scale < 0 then
      (absInt ++ List.replicate (-d.scale).toNat '0', [])
    else
      (absInt.take (len - d.scale).toNat, absInt.drop (len - d.scale).toNat)
  let complete := if ba.2.isEmpty then ba.1 else ba.1 ++ '.' :: ba.2
  if d.intVal < 0 then '-' :: complete else complete

/-- `to_string` of a `BigDecimal`. -/
def BigDecimal.render (d : BigDecimal) : String := ⟨d.toChars⟩

/-- Drop all trailing `'0'` characters (the `while s.ends_with('0')` loop). -/
def rtrimZeros (cs : List Char) : List Char :=
  (cs.reverse.dropWhile (fun c => c = '0')).reverse

/-- Trimming step of `normalize_frequency_key`: if the string contains `'.'`,
drop trailing zeros, then a trailing dot. -/
def trimChars (cs : List Char) : List Char :=
  if cs.contains '.' then
    let t := rtrimZeros cs
    if t.getLast? = some '.' then t.dropLast else t
  else cs

/-- The character-level body of `normalize_frequency_key`: trim, then map
`-0` to `0`. -/
def normalizeChars (cs : List Char) : List Char :=
  if trimChars cs = ['-', '0'] then ['0'] else trimChars cs

/-- Embedding of `normalize_frequency_key` (src/types.rs): render the
decimal with `to_string`, trim trailing zeros after a decimal point and a
trailing dot, and map `-0` to `0`. -/
def normalize_frequency_key (f : BigDecimal) : String :=
  ⟨normalizeChars f.toChars⟩

/-! ## Idealized Ed25519 and canonical bytes (`src/crypto.rs`) -/

/-- The space of wire strings appearing in key / signature positions:
`key k` is the base64 encoding of the `k`-th valid Ed25519 public key,
`sig (k, m)` the base64 encoding of the deterministic signature by
keypair `k` over message `m`, and `other s` any other string. -/
inductive B64 where
  | key (k : Nat)
  | sig (s : Nat × String)
  | other (t : String)
deriving DecidableEq

/-- A parsed verifying key, identified by its keypair index. -/
abbrev VerifyingKey := Nat

/-- A parsed signature: in the idealized scheme a signature object is
characterized by the keypair and message it is valid for. -/
abbrev Signature := Nat × String

/-- Embedding of `parse_public_key_b64`: succeeds exactly on encodings of
valid public keys. -/
def parse_public_key_b64 : B64 → Option VerifyingKey
  | .key k => some k
  | _ => none

/-- Embedding of `parse_sig_b64`: succeeds exactly on 64-byte signature
encodings. -/
def parse_sig_b64 : B64 → Option Signature
  | .sig s => some s
  | _ => none

/-- Embedding of `sign_bytes` for the keypair with index `sk`. -/
def sign_bytes (sk : Nat) (data : String) : Signature := (sk, data)

/-- Embedding of `verify_bytes`: in the idealized scheme a signature
verifies under `vk` over `data` exactly when it was produced by the
matching keypair over exactly those bytes. -/
def verify_bytes (vk : VerifyingKey) (data : String) (sig : Signature) : Bool :=
  sig.1 == vk && sig.2 == data

/-- Embedding of `canonicalize_ad_bytes`: the canonical signed bytes of an
advertisement (a UTF-8 `format!` string). -/
def canonicalize_ad_bytes (namespace_ : String) (frequency_key : String)
    (station_id : String) (stream_url : String) (advertised_at_rfc3339 : String)
    (ttl_seconds : Nat) : String :=
  "shortwave:" ++ namespace_ ++ ":freq=" ++ frequency_key ++ ";station=" ++
    station_id ++ ";url=" ++ stream_url ++ ";at=" ++ advertised_at_rfc3339 ++
    ";ttl=" ++ toString ttl_seconds

/-- Embedding of `canonicalize_release_bytes`. -/
def canonicalize_release_bytes (namespace_ : String) (frequency_key : String)
    (station_id : String) : String :=
  "shortwave:" ++ namespace_ ++ ":freq=" ++ frequency_key ++ ";station=" ++
    station_id

/-- `to_rfc3339`, modelled as an injective rendering of the timestamp. -/
def rfc3339 (t : Int) : String := toString t

/-! ## Registry data model (`src/types.rs`, `src/state.rs`) -/

/-- Embedding of `StationAdvertisement`. -/
structure StationAdvertisement where
  message_id : Nat
  station_id : Nat
  frequency : BigDecimal
  name : String
  stream_url : String
  advertised_at : Int
  ttl_seconds : Nat
  owner_public_key : B64
  signature : B64
deriving DecidableEq

/-- Embedding of `StationAssignment`. -/
structure StationAssignment where
  station_id : Nat
  frequency : BigDecimal
  name : String
  stream_url : String
  created_at : Int
  last_seen : Int
  expires_at : Int
  owner_public_key : B64
deriving DecidableEq

/-- Embedding of `RegistryEvent` (`event` is `"upsert"` or `"delete"`). -/
structure RegistryEvent where
  event : String
  assignment : StationAssignment
deriving DecidableEq

/-- Embedding of `RegistryError`. -/
inductive RegistryError where
  | FrequencyConflict (key : String) (holder : Nat)
  | InvalidSignature
  | OwnerMismatch
  | OwnerCapExceeded
deriving DecidableEq

/-- The registry-relevant fields of `AppState`: the frequency registry
(`HashMap` keyed by normalized frequency string), the `seen_messages`
dedup set, the per-owner cap, and the log of events sent on `events_tx`. -/
structure AppState where
  max_frequencies_per_owner : Nat
  registry : List (String × StationAssignment)
  seen_messages : List Nat
  events : List RegistryEvent
deriving DecidableEq

/-- A fresh state with an empty registry, as built by `AppState::new`. -/
def AppState.new (maxOwner : Nat) : AppState :=
  { max_frequencies_per_owner := maxOwner, registry := [], seen_messages := [],
    events := [] }

/-- Remove every binding of `k` (the effect of `HashMap::remove` on a map
with unique keys). -/
def eraseKey (k : String) (m : List (String × StationAssignment)) :
    List (String × StationAssignment) :=
  m.filter (fun p => p.1 ≠ k)

/-- `HashMap::insert`: bind `k` to `v`, replacing any existing binding. -/
def mapInsert (k : String) (v : StationAssignment)
    (m : List (String × StationAssignment)) : List (String × StationAssignment) :=
  (k, v) :: eraseKey k m

/-- Number of registry entries owned by `owner` (the
`reg.values().filter(...).count()` of the cap check). -/
def countOwner (owner : B64) (m : List (String × StationAssignment)) : Nat :=
  (m.filter (fun p => p.2.owner_public_key = owner)).length

/-- The assignment built on the insert path of `accept_advertisement`. -/
def mkAssignment (now : Int) (ad : StationAdvertisement) : StationAssignment :=
  { station_id := ad.station_id
    frequency := ad.frequency
    name := ad.name
    stream_url := ad.stream_url
    created_at := now
    last_seen := ad.advertised_at
    expires_at := ad.advertised_at + ad.ttl_seconds
    owner_public_key := ad.owner_public_key }

/-- The insert-and-emit tail of `accept_advertisement` (lines 108-123 of
`src/state.rs`). -/
def acceptInsert (st : AppState) (now : Int) (ad : StationAdvertisement)
    (key : String) : Except RegistryError StationAssignment × AppState :=
  let assignment := mkAssignment now ad
  (.ok assignment,
    { st with
      registry := mapInsert key assignment st.registry
      events := st.events ++ [⟨"upsert", assignment⟩] })

/-- `accept_advertisement` after the dedup gate: signature verification,
conflict resolution, cap check, then insert (lines 79-123 of
`src/state.rs`). -/
def acceptChecked (st : AppState) (now : Int) (ad : StationAdvertisement)
    (key : String) : Except RegistryError StationAssignment × AppState :=
  match parse_public_key_b64 ad.owner_public_key with
  | none => (.error .InvalidSignature, st)
  | some vk =>
    let msg := canonicalize_ad_bytes "advertise" key (toString ad.station_id)
      ad.stream_url (rfc3339 ad.advertised_at) ad.ttl_seconds
    match parse_sig_b64 ad.signature with
    | none => (.error .InvalidSignature, st)
    | some sig =>
      if ¬ verify_bytes vk msg sig then (.error .InvalidSignature, st)
      else
        match st.registry.lookup key with
        | some existing =>
          if existing.station_id ≠ ad.station_id then
            (.error (.FrequencyConflict key existing.station_id), st)
          else if existing.owner_public_key ≠ ad.owner_public_key then
            (.error .OwnerMismatch, st)
          else acceptInsert st now ad key
        | none =>
          if countOwner ad.owner_public_key st.registry ≥
              st.max_frequencies_per_owner then
            (.error .OwnerCapExceeded, st)
          else acceptInsert st now ad key

/-- Embedding of `accept_advertisement` (src/state.rs lines 68-124).
The Rust first executes `seen_messages.insert(message_id)` — recording the
id unconditionally — and short-circuits with the current assignment only
when the id was already present *and* the registry holds an entry at the
key; otherwise it falls through to full processing. -/
def accept_advertisement (st : AppState) (now : Int)
    (ad : StationAdvertisement) : Except RegistryError StationAssignment × AppState :=
  let key := normalize_frequency_key ad.frequency
  let alreadySeen := st.seen_messages.contains ad.message_id
  let st' := { st with
    seen_messages :=
      if alreadySeen then st.seen_messages else ad.message_id :: st.seen_messages }
  if alreadySeen then
    match st'.registry.lookup key with
    | some existing => (.ok existing, st')
    | none => acceptChecked st' now ad key
  else acceptChecked st' now ad key

/-- Embedding of `release_assignment` (src/state.rs lines 126-151). -/
def release_assignment (st : AppState) (frequency_key : String)
    (station_id : Nat) (signature_b64 : B64) : Bool × AppState :=
  let maybeOwnerPk : Option B64 :=
    match st.registry.lookup frequency_key with
    | some a => if a.station_id = station_id then some a.owner_public_key else none
    | none => none
  match maybeOwnerPk with
  | none => (false, st)
  | some owner_pk =>
    match parse_public_key_b64 owner_pk with
    | none => (false, st)
    | some vk =>
      let msg := canonicalize_release_bytes "release" frequency_key
        (toString station_id)
      match parse_sig_b64 signature_b64 with
      | none => (false, st)
      | some sig =>
        if verify_bytes vk msg sig = false then (false, st)
        else
          match st.registry.lookup frequency_key with
          | some a =>
            if a.station_id ≠ station_id then (false, st)
            else
              (true,
                { st with
                  registry := eraseKey frequency_key st.registry
                  events := st.events ++ [⟨"delete", a⟩] })
          | none => (false, st)

/-- One step of the removal loop of `expire_assignments`. -/
def expireStep (s : AppState) (k : String) : AppState :=
  match s.registry.lookup k with
  | some a =>
    { s with
      registry := eraseKey k s.registry
      events := s.events ++ [⟨"delete", a⟩] }
  | none => s

/-- Embedding of `expire_assignments` (src/state.rs lines 153-173): collect
the keys of entries with `expires_at ≤ now`, then remove each, emitting a
delete event per removed entry. -/
def expire_assignments (st : AppState) (now : Int) : AppState :=
  let toRemove :=
    (st.registry.filter (fun p => p.2.expires_at ≤ now)).map Prod.fst
  toRemove.foldl expireStep st

/-- Embedding of `snapshot_registry` (src/state.rs lines 175-179). -/
def snapshot_registry (st : AppState) (now : Int) : List StationAssignment :=
  (st.registry.filter (fun p => now < p.2.expires_at)).map (fun p => p.2)

/-- Embedding of `get_assignment_by_key`. -/
def get_assignment_by_key (st : AppState) (frequency_key : String) :
    Option StationAssignment :=
  st.registry.lookup frequency_key

/-- Embedding of `import_assignment` (src/state.rs lines 212-229): adopt
the incoming row at the normalized key (the Rust `match` inserts in every
branch), then emit an upsert event. -/
def import_assignment (st : AppState) (assignment : StationAssignment) : AppState :=
  let key := normalize_frequency_key assignment.frequency
  let reg :=
    match st.registry.lookup key with
    | some existing =>
      if existing.owner_public_key = assignment.owner_public_key then
        mapInsert key assignment st.registry
      else
        mapInsert key assignment st.registry
    | none => mapInsert key assignment st.registry
  let st' := { st with registry := reg }
  { st' with events := st'.events ++ [⟨"upsert", assignment⟩] }

/-! ## Operation sequences over the registry -/

/-- The registry operations a claim may sequence. -/
inductive Op where
  | accept (now : Int) (ad : StationAdvertisement)
  | release (key : String) (station_id : Nat) (sig : B64)
  | expire (now : Int)
  | importOp (a : StationAssignment)

/-- Apply one operation. -/
def applyOp (st : AppState) : Op → AppState
  | .accept now ad => (accept_advertisement st now ad).2
  | .release k sid sig => (release_assignment st k sid sig).2
  | .expire now => expire_assignments st now
  | .importOp a => import_assignment st a

/-- Run a sequence of operations. -/
def run (st : AppState) : List Op → AppState
  | [] => st
  | op :: ops => run (applyOp st op) ops

/-- The operation is not an import (claims C2 and C10 restrict to the
`accept`/`release`/`expire` surface). -/
def Op.noImport : Op → Prop
  | .importOp _ => False
  | _ => True

/-- The operation is an `accept` call. -/
def Op.isAccept : Op → Prop
  | .accept _ _ => True
  | _ => False

instance : DecidablePred Op.noImport := fun op => by
  cases op <;> simp [Op.noImport] <;> infer_instance

instance : DecidablePred Op.isAccept := fun op => by
  cases op <;> simp [Op.isAccept] <;> infer_instance

/-! ## Analysis tools for frequency-key normalization

The definitions below are not part of the embedded program; they are the
specification-side apparatus used to settle claim C3: reading a rational
value back out of a rendered string, and the representation moves
(`shift`, `reduce`) connecting decimals of equal value. -/

/-- The digit value of a decimal digit character. -/
def charToDigit (c : Char) : Nat := c.toNat - '0'.toNat

/-- The natural number denoted by a most-significant-first digit string. -/
def charsToNat (cs : List Char) : Nat :=
  Nat.ofDigits 10 ((cs.map charToDigit).reverse)

/-- The nonnegative rational denoted by an unsigned rendered decimal:
integer part up to the first `'.'`, fractional part after it. -/
def parseAbs (body : List Char) : ℚ :=
  let intp := body.takeWhile (fun c => c ≠ '.')
  let frac := (body.dropWhile (fun c => c ≠ '.')).tail
  (charsToNat intp : ℚ) + (charsToNat frac : ℚ) / 10 ^ frac.length

/-- The rational denoted by a rendered decimal string with optional sign. -/
def parseVal (cs : List Char) : ℚ :=
  if cs.head? = some '-' then -(parseAbs cs.tail) else parseAbs cs

/-- Multiply the unscaled integer by 10 and bump the scale: a different
representation of the same value. -/
def BigDecimal.shiftRep (d : BigDecimal) : BigDecimal :=
  ⟨10 * d.intVal, d.scale + 1⟩

/-- Iterated representation shift. -/
def BigDecimal.shiftIter (k : Nat) (d : BigDecimal) : BigDecimal :=
  match k with
  | 0 => d
  | k + 1 => BigDecimal.shiftIter k d.shiftRep

/-- Fueled reduction: while the scale is positive and the unscaled integer
is divisible by 10, divide it out. -/
def reduceAux : Nat → Int → Int → BigDecimal
  | 0, n, s => ⟨n, s⟩
  | fuel + 1, n, s =>
    if 0 < s ∧ (10 : Int) ∣ n then reduceAux fuel (n / 10) (s - 1) else ⟨n, s⟩

/-- The reduced representation of a decimal: no factor of 10 left to move
into a positive scale. -/
def BigDecimal.reduce (d : BigDecimal) : BigDecimal :=
  reduceAux d.scale.toNat d.intVal d.scale

/-- A decimal representation is reduced if its scale cannot be lowered. -/
def BigDecimal.Reduced (d : BigDecimal) : Prop :=
  ¬ (0 < d.scale ∧ (10 : Int) ∣ d.intVal)

/-- Decidable equality for `Except`, used to evaluate the embedded
operations on concrete inputs. -/
instance {e a : Type} [DecidableEq e] [DecidableEq a] : DecidableEq (Except e a) :=
  fun x y =>
    match x, y with
    | .ok u, .ok v =>
      if h : u = v then isTrue (by rw [h])
      else isFalse (fun he => h (Except.ok.inj he))
    | .error u, .error v =>
      if h : u = v then isTrue (by rw [h])
      else isFalse (fun he => h (Except.error.inj he))
    | .ok _, .error _ => isFalse (fun he => Except.noConfusion he)
    | .error _, .ok _ => isFalse (fun he => Except.noConfusion he)

/-- The registry invariant: unique keys (a `HashMap` property) and the
per-owner cap. -/
def RegInv (st : AppState) : Prop :=
  (st.registry.map Prod.fst).Nodup ∧
    ∀ k, countOwner k st.registry ≤ st.max_frequencies_per_owner

/-! ## Specification-side definitions

`releaseOk` and `specCanonicalAd` are written from the specification text
(§4.3 "Operation: release" and §4.1 "Canonical format"), to be compared
with the embedded operations. -/

/-- The specification's success condition for a release: an entry exists at
`frequency_key`, its `station_id` matches, and the signature verifies over
the canonical release bytes under the *current* entry's owner public key. -/
def releaseOk (st : AppState) (frequency_key : String) (station_id : Nat)
    (signature_b64 : B64) : Bool :=
  match st.registry.lookup frequency_key with
  | some a =>
    a.station_id == station_id &&
      (match parse_public_key_b64 a.owner_public_key, parse_sig_b64 signature_b64 with
       | some vk, some sig =>
         verify_bytes vk
           (canonicalize_release_bytes "release" frequency_key (toString station_id)) sig
       | _, _ => false)
  | none => false

/-- The advertisement byte template exactly as written in the spec:
`shortwave:` then the namespace, then `:freq=`, the key, `;station=`, the
station id, `;url=`, the url, `;at=`, the timestamp, `;ttl=`, the TTL. -/
def specCanonicalAd (ns key sid url ts : String) (ttl : Nat) : String :=
  "shortwave:" ++ ns ++ ":freq=" ++ key ++ ";station=" ++ sid ++ ";url=" ++
    url ++ ";at=" ++ ts ++ ";ttl=" ++ toString ttl

/-! ## Concrete fixtures used to instantiate the claims -/

/-- A registry row with the given station, frequency, owner and expiry. -/
def asgEx (sid : Nat) (freq : BigDecimal) (owner : B64) (exp : Int) :
    StationAssignment :=
  { station_id := sid, frequency := freq, name := "s", stream_url := "u",
    created_at := 0, last_seen := 0, expires_at := exp,
    owner_public_key := owner }

/-- A correctly signed advertisement: owner keypair 1, station 1,
frequency 100.5. -/
def adEx : StationAdvertisement :=
  { message_id := 10, station_id := 1, frequency := ⟨1005, 1⟩,
    name := "Station A", stream_url := "http-a", advertised_at := 0,
    ttl_seconds := 30, owner_public_key := B64.key 1,
    signature := B64.sig (1, canonicalize_ad_bytes "advertise"
      (normalize_frequency_key ⟨1005, 1⟩) "1" "http-a" (rfc3339 0) 30) }

/-- A correctly signed release of `adEx`'s assignment by keypair 1. -/
def relSigEx : B64 :=
  B64.sig (1, canonicalize_release_bytes "release"
    (normalize_frequency_key ⟨1005, 1⟩) "1")

/-- An advertisement whose signature field is not even parseable. -/
def adBad : StationAdvertisement :=
  { message_id := 11, station_id := 2, frequency := ⟨90, 0⟩, name := "B",
    stream_url := "http-b", advertised_at := 0, ttl_seconds := 30,
    owner_public_key := B64.key 2, signature := B64.other "junk" }

/-- A correctly signed advertisement by a different owner and station for
the same frequency 100.5 as `adEx`. -/
def adConf : StationAdvertisement :=
  { message_id := 12, station_id := 2, frequency := ⟨1005, 1⟩, name := "C",
    stream_url := "http-c", advertised_at := 0, ttl_seconds := 30,
    owner_public_key := B64.key 2,
    signature := B64.sig (2, canonicalize_ad_bytes "advertise"
      (normalize_frequency_key ⟨1005, 1⟩) "2" "http-c" (rfc3339 0) 30) }

/-- A state where owner keypair 1 already holds its cap of one frequency. -/
def stFull : AppState :=
  { max_frequencies_per_owner := 1,
    registry := [("90", asgEx 5 ⟨90, 0⟩ (B64.key 1) 100)],
    seen_messages := [], events := [] }

/-- A correctly signed advertisement for an empty slot by the capped
owner 1. -/
def adCap : StationAdvertisement :=
  { message_id := 20, station_id := 6, frequency := ⟨91, 0⟩, name := "T",
    stream_url := "http-t", advertised_at := 0, ttl_seconds := 30,
    owner_public_key := B64.key 1,
    signature := B64.sig (1, canonicalize_ad_bytes "advertise"
      (normalize_frequency_key ⟨91, 0⟩) "6" "http-t" (rfc3339 0) 30) }

/-- A state whose `seen_messages` already contains `adEx`'s message id and
whose registry holds an entry at the key 100.5. -/
def stDup : AppState :=
  { max_frequencies_per_owner := 3,
    registry := [("100.5", asgEx 1 ⟨1005, 1⟩ (B64.key 1) 100)],
    seen_messages := [10], events := [] }

/-- A state with one expired and one live entry under distinct keys. -/
def stExp : AppState :=
  { max_frequencies_per_owner := 3,
    registry := [("1", asgEx 1 ⟨1, 0⟩ (B64.key 1) 5),
                 ("2", asgEx 2 ⟨2, 0⟩ (B64.key 2) 100)],
    seen_messages := [], events := [] }

/-- Imported rows for the cap-bypass scenario: two frequencies, one owner. -/
def impA : StationAssignment := asgEx 7 ⟨1, 0⟩ (B64.key 1) 100

/-- Second imported row owned by the same keypair 1. -/
def impB : StationAssignment := asgEx 8 ⟨2, 0⟩ (B64.key 1) 100

/-! ## Lemmas: decimal digit strings -/

theorem digitsRevAux_eq (fuel : Nat) : ∀ n : Nat, n ≤ fuel →
    digitsRevAux fuel n = Nat.digits 10 n := by
  induction fuel with
  | zero => intro n h; interval_cases n; simp [digitsRevAux]
  | succ fuel ih =>
    intro n h
    by_cases hn : n = 0
    · subst hn; simp [digitsRevAux]
    · rw [digitsRevAux, if_neg hn, Nat.digits_def' (by norm_num) (Nat.pos_of_ne_zero hn),
        ih (n / 10)]
      exact Nat.le_of_lt_succ (Nat.lt_of_lt_of_le (Nat.div_lt_self (Nat.pos_of_ne_zero hn) (by norm_num)) h)

theorem digitsRev_eq (n : Nat) : digitsRev n = Nat.digits 10 n :=
  digitsRevAux_eq n n le_rfl

theorem decStr_ne_nil (n : Nat) : decStr n ≠ [] := by
  unfold decStr
  by_cases h : n = 0
  · simp [h]
  · simp only [if_neg h]
    intro hc
    have : Nat.digits 10 n ≠ [] := Nat.digits_ne_nil_iff_ne_zero.mpr h
    rw [digitsRev_eq] at hc
    simp at hc
    exact this hc

theorem mem_decStr {n : Nat} {c : Char} (h : c ∈ decStr n) :
    ∃ d, d < 10 ∧ c = Nat.digitChar d := by
  unfold decStr at h
  by_cases hn : n = 0
  · simp [hn] at h
    exact ⟨0, by norm_num, h⟩
  · simp only [if_neg hn, List.mem_reverse, List.mem_map, digitsRev_eq] at h
    obtain ⟨d, hd, rfl⟩ := h
    exact ⟨d, Nat.digits_lt_base (by norm_num) hd, rfl⟩

theorem digitChar_ne_dot {d : Nat} (h : d < 10) : Nat.digitChar d ≠ '.' := by
  interval_cases d <;> decide

theorem digitChar_ne_dash {d : Nat} (h : d < 10) : Nat.digitChar d ≠ '-' := by
  interval_cases d <;> decide

theorem digitChar_ne_plus {d : Nat} (h : d < 10) : Nat.digitChar d ≠ '+' := by
  interval_cases d <;> decide

theorem digitChar_ne_zero {d : Nat} (h : d < 10) (hd : d ≠ 0) :
    Nat.digitChar d ≠ '0' := by
  interval_cases d <;> simp_all <;> decide

theorem dot_not_mem_decStr (n : Nat) : '.' ∉ decStr n := by
  intro h
  obtain ⟨d, hd, hc⟩ := mem_decStr h
  exact digitChar_ne_dot hd hc.symm

theorem charToDigit_digitChar {d : Nat} (h : d < 10) :
    charToDigit (Nat.digitChar d) = d := by
  interval_cases d <;> decide

theorem charsToNat_decStr (n : Nat) : charsToNat (decStr n) = n := by
  unfold charsToNat decStr
  by_cases hn : n = 0
  · simp [hn, charToDigit, Nat.ofDigits]
  · simp only [if_neg hn, List.map_reverse, List.reverse_reverse, List.map_map]
    have : (digitsRev n).map (charToDigit ∘ Nat.digitChar) = digitsRev n := by
      have h1 : ∀ d ∈ digitsRev n, (charToDigit ∘ Nat.digitChar) d = id d := by
        intro d hd
        exact charToDigit_digitChar
          (Nat.digits_lt_base (by norm_num) (by rwa [digitsRev_eq] at hd))
      rw [List.map_congr_left h1, List.map_id]
    rw [this, digitsRev_eq, Nat.ofDigits_digits]

theorem decStr_mul10 {n : Nat} (hn : n ≠ 0) : decStr (10 * n) = decStr n ++ ['0'] := by
  unfold decStr
  have h10 : 10 * n ≠ 0 := by positivity
  rw [if_neg h10, if_neg hn, digitsRev_eq, digitsRev_eq,
    Nat.digits_def' (b := 10) (by norm_num) (Nat.pos_of_ne_zero h10),
    Nat.mul_mod_right, Nat.mul_div_cancel_left n (by norm_num)]
  simp [Nat.digitChar]

theorem charsToNat_append (xs ys : List Char) :
    charsToNat (xs ++ ys) = charsToNat xs * 10 ^ ys.length + charsToNat ys := by
  unfold charsToNat
  rw [List.map_append, List.reverse_append, Nat.ofDigits_append]
  simp [Nat.add_comm, Nat.mul_comm]

theorem charsToNat_replicate (z : Nat) : charsToNat (List.replicate z '0') = 0 := by
  induction z with
  | zero => rfl
  | succ z ih =>
    have : List.replicate (z + 1) '0' = List.replicate z '0' ++ ['0'] := by
      rw [List.replicate_succ' z '0']
    rw [this, charsToNat_append, ih]
    simp
    rfl

theorem decStr_getLast {n : Nat} (hn : n ≠ 0) :
    (decStr n).getLast? = some (Nat.digitChar (n % 10)) := by
  unfold decStr
  rw [if_neg hn, digitsRev_eq,
    Nat.digits_def' (b := 10) (by norm_num) (Nat.pos_of_ne_zero hn)]
  simp [List.getLast?_concat]

/-! ## Lemmas: trailing-zero trimming -/

theorem dropWhile_replicate_append {p : Char → Bool} {a : Char} (hp : p a = true)
    (z : Nat) (l : List Char) :
    List.dropWhile p (List.replicate z a ++ l) = List.dropWhile p l := by
  induction z with
  | zero => simp
  | succ z ih => rw [List.replicate_succ, List.cons_append, List.dropWhile_cons, if_pos hp, ih]

theorem rtrimZeros_append_replicate (cs : List Char) (z : Nat) :
    rtrimZeros (cs ++ List.replicate z '0') = rtrimZeros cs := by
  unfold rtrimZeros
  rw [List.reverse_append, List.reverse_replicate,
    dropWhile_replicate_append (by simp) z cs.reverse]

theorem rtrimZeros_append_zero (cs : List Char) :
    rtrimZeros (cs ++ ['0']) = rtrimZeros cs := by
  have : ['0'] = List.replicate 1 '0' := rfl
  rw [this, rtrimZeros_append_replicate]

theorem rtrimZeros_of_getLast_ne {cs : List Char} {c : Char}
    (h : cs.getLast? = some c) (hc : c ≠ '0') : rtrimZeros cs = cs := by
  unfold rtrimZeros
  rw [List.getLast?_eq_head?_reverse] at h
  cases hrev : cs.reverse with
  | nil => rw [hrev] at h; simp at h
  | cons x xs =>
    rw [hrev] at h
    simp at h
    subst h
    rw [List.dropWhile_cons, if_neg (by simpa using hc), ← hrev, List.reverse_reverse]

theorem rtrimZeros_getLast_ne_zero {cs : List Char} (h : rtrimZeros cs ≠ []) :
    rtrimZeros cs ≠ [] → ∀ c, (rtrimZeros cs).getLast? = some c → c ≠ '0' := by
  intro _ c hc
  unfold rtrimZeros at hc
  rw [List.getLast?_reverse] at hc
  have hne : cs.reverse.dropWhile (fun c => c = '0') ≠ [] := by
    intro hnil
    apply h
    unfold rtrimZeros
    rw [hnil]
    rfl
  have := List.head_dropWhile_not (fun c => c = '0') cs.reverse hne
  rw [List.head?_eq_head hne] at hc
  simp at hc
  subst hc
  simpa using this

theorem mem_rtrimZeros {cs : List Char} {c : Char} (h : c ∈ rtrimZeros cs) :
    c ∈ cs := by
  unfold rtrimZeros at h
  rw [List.mem_reverse] at h
  have := (List.dropWhile_sublist (l := cs.reverse) (fun c => c = '0')).mem h
  rwa [List.mem_reverse] at this

theorem contains_eq_decide (l : List Char) (c : Char) :
    l.contains c = decide (c ∈ l) := by simp

/-! ## Lemmas: the shape of `BigDecimal.toChars` in each scale regime -/

theorem toChars_case_big {d : BigDecimal}
    (h : ((decStr d.intVal.natAbs).length : Int) ≤ d.scale) :
    d.toChars =
      (if d.intVal < 0 then ['-'] else []) ++
        '0' :: '.' ::
          (List.replicate (d.scale - (decStr d.intVal.natAbs).length).toNat '0' ++
            decStr d.intVal.natAbs) := by
  unfold BigDecimal.toChars
  simp only [if_pos h]
  have hne : (List.replicate (d.scale - (decStr d.intVal.natAbs).length).toNat '0' ++
      decStr d.intVal.natAbs).isEmpty = false := by
    rcases hd : decStr d.intVal.natAbs with _ | ⟨x, xs⟩
    · exact absurd hd (decStr_ne_nil _)
    · simp
  rw [hne]
  by_cases hs : d.intVal < 0 <;> simp [hs]

theorem toChars_case_neg {d : BigDecimal} (h : d.scale < 0) :
    d.toChars =
      (if d.intVal < 0 then ['-'] else []) ++
        (decStr d.intVal.natAbs ++ List.replicate (-d.scale).toNat '0') := by
  unfold BigDecimal.toChars
  have h1 : ¬ ((decStr d.intVal.natAbs).length : Int) ≤ d.scale := by
    have : (0 : Int) ≤ (decStr d.intVal.natAbs).length := by positivity
    omega
  simp only [if_neg h1, if_pos h]
  by_cases hs : d.intVal < 0 <;> simp [hs]

theorem toChars_case_zero {d : BigDecimal} (h : d.scale = 0) :
    d.toChars =
      (if d.intVal < 0 then ['-'] else []) ++ decStr d.intVal.natAbs := by
  have hL : 1 ≤ (decStr d.intVal.natAbs).length := by
    rcases hd : decStr d.intVal.natAbs with _ | ⟨x, xs⟩
    · exact absurd hd (decStr_ne_nil _)
    · simp
  have h1 : ¬ ((decStr d.intVal.natAbs).length : Int) ≤ d.scale := by
    rw [h]; exact_mod_cast by omega
  have h2 : ¬ d.scale < 0 := by omega
  unfold BigDecimal.toChars
  simp only [if_neg h1, if_neg h2]
  have h3 : (((decStr d.intVal.natAbs).length : Int) - d.scale).toNat =
      (decStr d.intVal.natAbs).length := by omega
  rw [h3, List.take_length, List.drop_length]
  simp only [List.isEmpty_nil, if_true]
  by_cases hs : d.intVal < 0 <;> simp [hs]

theorem toChars_case_mid {d : BigDecimal} (h1 : 0 < d.scale)
    (h2 : d.scale < ((decStr d.intVal.natAbs).length : Int)) :
    d.toChars =
      (if d.intVal < 0 then ['-'] else []) ++
        ((decStr d.intVal.natAbs).take
            (((decStr d.intVal.natAbs).length : Int) - d.scale).toNat ++
          '.' :: (decStr d.intVal.natAbs).drop
            (((decStr d.intVal.natAbs).length : Int) - d.scale).toNat) := by
  unfold BigDecimal.toChars
  have ha : ¬ ((decStr d.intVal.natAbs).length : Int) ≤ d.scale := by omega
  have hb : ¬ d.scale < 0 := by omega
  simp only [if_neg ha, if_neg hb]
  have hdrop : ((decStr d.intVal.natAbs).drop
      (((decStr d.intVal.natAbs).length : Int) - d.scale).toNat).isEmpty = false := by
    have hlt : (((decStr d.intVal.natAbs).length : Int) - d.scale).toNat <
        (decStr d.intVal.natAbs).length := by omega
    rcases hd : (decStr d.intVal.natAbs).drop
        (((decStr d.intVal.natAbs).length : Int) - d.scale).toNat with _ | ⟨x, xs⟩
    · have := List.drop_eq_nil_iff.mp hd
      omega
    · simp
  rw [hdrop]
  by_cases hs : d.intVal < 0 <;> simp [hs]

/-! ## Lemmas: trimming -/

theorem trimChars_of_no_dot {cs : List Char} (h : '.' ∉ cs) : trimChars cs = cs := by
  unfold trimChars
  rw [contains_eq_decide]
  simp [h]

theorem trimChars_append_zero {cs : List Char} (h : '.' ∈ cs) :
    trimChars (cs ++ ['0']) = trimChars cs := by
  unfold trimChars
  rw [contains_eq_decide, contains_eq_decide]
  have h2 : '.' ∈ cs ++ ['0'] := List.mem_append_left _ h
  rw [decide_eq_true h2, decide_eq_true h, if_pos rfl, if_pos rfl,
    rtrimZeros_append_zero]

/-! ## Lemmas: normalization is invariant under representation shifts -/

theorem natAbs_ten_mul (n : Int) : (10 * n).natAbs = 10 * n.natAbs := by
  rw [Int.natAbs_mul]; norm_num

theorem trimChars_toChars_zero {s : Int} (hs : 0 ≤ s) :
    trimChars (BigDecimal.toChars ⟨0, s⟩) = ['0'] := by
  by_cases h0 : s = 0
  · subst h0
    rw [toChars_case_zero (d := ⟨0, 0⟩) rfl]
    have : decStr (Int.natAbs 0) = ['0'] := rfl
    rw [this]
    simp only [show ¬ ((0 : Int) < 0) by omega, if_neg, ite_false]
    norm_num
    apply trimChars_of_no_dot
    decide
  · have h1 : ((decStr (Int.natAbs 0)).length : Int) ≤ s := by
      have : decStr (Int.natAbs 0) = ['0'] := rfl
      rw [this]; simp; omega
    rw [toChars_case_big (d := ⟨0, s⟩) h1]
    have hds : decStr (Int.natAbs 0) = ['0'] := rfl
    rw [hds]
    simp only [show ¬ ((0 : Int) < 0) by omega, ite_false]
    have hrep : List.replicate (s - ((['0'] : List Char).length : Int)).toNat '0' ++ ['0'] =
        List.replicate ((s - ((['0'] : List Char).length : Int)).toNat + 1) '0' := by
      rw [List.replicate_succ']
    rw [List.nil_append]
    have hX : ('0' : Char) :: '.' ::
        (List.replicate (s - ((['0'] : List Char).length : Int)).toNat '0' ++ ['0']) =
        ['0', '.'] ++ List.replicate ((s - ((['0'] : List Char).length : Int)).toNat + 1) '0' := by
      rw [← hrep]; rfl
    rw [hX]
    unfold trimChars
    rw [contains_eq_decide, decide_eq_true (by simp), if_pos rfl,
      rtrimZeros_append_replicate]
    have : rtrimZeros ['0', '.'] = ['0', '.'] :=
      rtrimZeros_of_getLast_ne (by rfl) (by decide)
    rw [this]
    rfl

theorem dot_mem_sgn_mid (sgn pre post : List Char) :
    '.' ∈ sgn ++ (pre ++ '.' :: post) := by
  simp

theorem trimChars_toChars_shift (d : BigDecimal) (hs : 0 ≤ d.scale) :
    trimChars d.shiftRep.toChars = trimChars d.toChars := by
  by_cases hn : d.intVal = 0
  · obtain ⟨n, s⟩ := d
    simp only at hn hs
    subst hn
    have h1 : BigDecimal.shiftRep ⟨0, s⟩ = ⟨0, s + 1⟩ := by
      simp [BigDecimal.shiftRep]
    rw [h1, trimChars_toChars_zero (by omega), trimChars_toChars_zero hs]
  · -- nonzero unscaled integer
    obtain ⟨n, s⟩ := d
    simp only at hn hs
    have hm : n.natAbs ≠ 0 := by simpa using hn
    have hL1 : 1 ≤ (decStr n.natAbs).length := by
      rcases hd : decStr n.natAbs with _ | ⟨x, xs⟩
      · exact absurd hd (decStr_ne_nil _)
      · simp
    have hds10 : decStr ((BigDecimal.shiftRep ⟨n, s⟩).intVal.natAbs) =
        decStr n.natAbs ++ ['0'] := by
      have habs : (BigDecimal.shiftRep ⟨n, s⟩).intVal.natAbs = 10 * n.natAbs := by
        simp [BigDecimal.shiftRep, natAbs_ten_mul]
      rw [habs, decStr_mul10 hm]
    have hsign : ((BigDecimal.shiftRep ⟨n, s⟩).intVal < 0) = (n < 0) := by
      simp only [BigDecimal.shiftRep]
      exact propext (by omega)
    have hscale : (BigDecimal.shiftRep ⟨n, s⟩).scale = s + 1 := rfl
    rcases lt_trichotomy s ((decStr n.natAbs).length : Int) with hcase | hcase | hcase
    · -- s < L : the digits straddle or precede the point
      by_cases hs0 : s = 0
      · -- integer rendering on the original, a trailing ".0" on the shift
        subst hs0
        rw [toChars_case_zero (d := ⟨n, 0⟩) rfl]
        have h1 : 0 < (BigDecimal.shiftRep ⟨n, 0⟩).scale := by rw [hscale]; omega
        have h2 : (BigDecimal.shiftRep ⟨n, 0⟩).scale <
            ((decStr ((BigDecimal.shiftRep ⟨n, 0⟩).intVal.natAbs)).length : Int) := by
          rw [hscale, hds10]; push_cast; simp; omega
        rw [toChars_case_mid (d := BigDecimal.shiftRep ⟨n, 0⟩) h1 h2]
        simp only [hds10, hsign, hscale, List.length_append, List.length_singleton]
        have ht : ((((decStr n.natAbs).length + 1 : Nat) : Int) - (0 + 1)).toNat =
            (decStr n.natAbs).length := by push_cast; omega
        rw [ht, List.take_append_of_le_length (le_refl (decStr n.natAbs).length),
          List.drop_append_of_le_length (le_refl (decStr n.natAbs).length),
          List.take_length, List.drop_length]
        have hdotX : '.' ∉ (if n < 0 then ['-'] else []) ++ decStr n.natAbs := by
          intro hmem
          rcases List.mem_append.mp hmem with hsg | hdsm
          · by_cases hb : n < 0 <;> simp [hb] at hsg
          · exact dot_not_mem_decStr n.natAbs hdsm
        rw [trimChars_of_no_dot hdotX]
        have hY : (if n < 0 then ['-'] else []) ++
            (decStr n.natAbs ++ '.' :: (([] : List Char) ++ ['0'])) =
            (((if n < 0 then ['-'] else []) ++ decStr n.natAbs) ++ ['.']) ++ ['0'] := by
          simp
        rw [hY]
        unfold trimChars
        rw [contains_eq_decide, decide_eq_true (by simp), if_pos rfl,
          rtrimZeros_append_zero]
        have hlast : (((if n < 0 then ['-'] else []) ++ decStr n.natAbs) ++ ['.']).getLast? =
            some '.' := List.getLast?_concat _
        rw [rtrimZeros_of_getLast_ne hlast (by decide)]
        simp only [hlast, if_true, List.dropLast_concat]
      · -- 0 < s < L : split strings on both sides
        have hsp : 0 < s := by omega
        have h1 : 0 < (BigDecimal.shiftRep ⟨n, s⟩).scale := by rw [hscale]; omega
        have h2 : (BigDecimal.shiftRep ⟨n, s⟩).scale <
            ((decStr ((BigDecimal.shiftRep ⟨n, s⟩).intVal.natAbs)).length : Int) := by
          rw [hscale, hds10]; push_cast; simp; omega
        rw [toChars_case_mid (d := BigDecimal.shiftRep ⟨n, s⟩) h1 h2,
          toChars_case_mid (d := ⟨n, s⟩) hsp hcase]
        simp only [hds10, hsign, hscale, List.length_append, List.length_singleton]
        have ht : ((((decStr n.natAbs).length + 1 : Nat) : Int) - (s + 1)).toNat =
            (((decStr n.natAbs).length : Int) - s).toNat := by push_cast; omega
        rw [ht]
        have htle : (((decStr n.natAbs).length : Int) - s).toNat ≤ (decStr n.natAbs).length := by
          omega
        rw [List.take_append_of_le_length htle, List.drop_append_of_le_length htle]
        have key := @trimChars_append_zero
          ((if n < 0 then ['-'] else []) ++
            ((decStr n.natAbs).take (((decStr n.natAbs).length : Int) - s).toNat ++
              '.' :: (decStr n.natAbs).drop (((decStr n.natAbs).length : Int) - s).toNat))
          (dot_mem_sgn_mid _ _ _)
        rw [← key]
        congr 1
        simp
    · -- s = L : padded regime for the original
      have hbig : ((decStr (Int.natAbs n)).length : Int) ≤ s := le_of_eq hcase.symm
      have hbig' : ((decStr ((BigDecimal.shiftRep ⟨n, s⟩).intVal.natAbs)).length : Int) ≤
          (BigDecimal.shiftRep ⟨n, s⟩).scale := by
        rw [hscale, hds10]; push_cast; simp; omega
      rw [toChars_case_big (d := BigDecimal.shiftRep ⟨n, s⟩) hbig',
        toChars_case_big (d := ⟨n, s⟩) hbig]
      simp only [hds10, hsign, hscale, List.length_append, List.length_singleton]
      have hz : ((s + 1) - (((decStr n.natAbs).length + 1 : Nat) : Int)).toNat =
          (s - ((decStr n.natAbs).length : Int)).toNat := by push_cast; omega
      rw [hz]
      have key := @trimChars_append_zero
        ((if n < 0 then ['-'] else []) ++
          '0' :: '.' :: (List.replicate (s - ((decStr n.natAbs).length : Int)).toNat '0' ++
            decStr n.natAbs))
        (by by_cases hsg : n < 0 <;> simp [hsg])
      rw [← key]
      congr 1
      simp
    · -- L < s : padded regime on both sides
      have hbig : ((decStr (Int.natAbs n)).length : Int) ≤ s := le_of_lt hcase
      have hbig' : ((decStr ((BigDecimal.shiftRep ⟨n, s⟩).intVal.natAbs)).length : Int) ≤
          (BigDecimal.shiftRep ⟨n, s⟩).scale := by
        rw [hscale, hds10]; push_cast; simp; omega
      rw [toChars_case_big (d := BigDecimal.shiftRep ⟨n, s⟩) hbig',
        toChars_case_big (d := ⟨n, s⟩) hbig]
      simp only [hds10, hsign, hscale, List.length_append, List.length_singleton]
      have hz : ((s + 1) - (((decStr n.natAbs).length + 1 : Nat) : Int)).toNat =
          (s - ((decStr n.natAbs).length : Int)).toNat := by push_cast; omega
      rw [hz]
      have key := @trimChars_append_zero
        ((if n < 0 then ['-'] else []) ++
          '0' :: '.' :: (List.replicate (s - ((decStr n.natAbs).length : Int)).toNat '0' ++
            decStr n.natAbs))
        (by by_cases hsg : n < 0 <;> simp [hsg])
      rw [← key]
      congr 1
      simp

/-! ## Lemmas: value under representation shifts, reduction -/

theorem val_shiftRep (d : BigDecimal) : d.shiftRep.val = d.val := by
  unfold BigDecimal.val BigDecimal.shiftRep
  simp only
  have h1 : (10:ℚ) ^ (-(d.scale + 1)) = (10:ℚ) ^ (-d.scale) * (10:ℚ)⁻¹ := by
    rw [neg_add, zpow_add₀ (by norm_num : (10:ℚ) ≠ 0), zpow_neg_one]
  rw [h1]
  push_cast
  ring

theorem shiftIter_succ' (k : Nat) (d : BigDecimal) :
    BigDecimal.shiftIter (k + 1) d = (BigDecimal.shiftIter k d).shiftRep := by
  induction k generalizing d with
  | zero => rfl
  | succ k ih =>
    show BigDecimal.shiftIter (k + 1) d.shiftRep = _
    rw [ih d.shiftRep]
    rfl

theorem val_shiftIter (k : Nat) (d : BigDecimal) :
    (BigDecimal.shiftIter k d).val = d.val := by
  induction k generalizing d with
  | zero => rfl
  | succ k ih =>
    show (BigDecimal.shiftIter k d.shiftRep).val = d.val
    rw [ih d.shiftRep, val_shiftRep]

theorem scale_shiftIter (k : Nat) (d : BigDecimal) :
    (BigDecimal.shiftIter k d).scale = d.scale + k := by
  induction k generalizing d with
  | zero => simp [BigDecimal.shiftIter]
  | succ k ih =>
    show (BigDecimal.shiftIter k d.shiftRep).scale = _
    rw [ih d.shiftRep]
    simp [BigDecimal.shiftRep]
    omega

theorem intVal_shiftIter (k : Nat) (d : BigDecimal) :
    (BigDecimal.shiftIter k d).intVal = 10 ^ k * d.intVal := by
  induction k generalizing d with
  | zero => simp [BigDecimal.shiftIter]
  | succ k ih =>
    show (BigDecimal.shiftIter k d.shiftRep).intVal = _
    rw [ih d.shiftRep]
    simp [BigDecimal.shiftRep]
    ring

theorem normalizeChars_congr {cs1 cs2 : List Char}
    (h : trimChars cs1 = trimChars cs2) : normalizeChars cs1 = normalizeChars cs2 := by
  unfold normalizeChars
  rw [h]

theorem normChars_shiftIter (k : Nat) (d : BigDecimal) (hs : 0 ≤ d.scale) :
    normalizeChars (BigDecimal.shiftIter k d).toChars = normalizeChars d.toChars := by
  induction k generalizing d with
  | zero => rfl
  | succ k ih =>
    show normalizeChars (BigDecimal.shiftIter k d.shiftRep).toChars = _
    rw [ih d.shiftRep (by simp [BigDecimal.shiftRep]; omega),
      normalizeChars_congr (trimChars_toChars_shift d hs)]

theorem eq_shiftIter_of_val_eq {d1 d2 : BigDecimal} (h : d1.val = d2.val)
    (hs : d1.scale ≤ d2.scale) :
    BigDecimal.shiftIter (d2.scale - d1.scale).toNat d1 = d2 := by
  obtain ⟨n1, s1⟩ := d1
  obtain ⟨n2, s2⟩ := d2
  simp only at hs
  unfold BigDecimal.val at h
  simp only at h
  have hk : (((s2 - s1).toNat : Nat) : Int) = s2 - s1 := Int.toNat_of_nonneg (by omega)
  have h10 : (10:ℚ) ≠ 0 := by norm_num
  have h2 : (n2 : ℚ) = (n1 : ℚ) * (10:ℚ) ^ (s2 - s1) := by
    calc (n2:ℚ) = (n2:ℚ) * (10:ℚ) ^ (-s2) * (10:ℚ) ^ s2 := by
          rw [mul_assoc, ← zpow_add₀ h10]
          simp
      _ = (n1:ℚ) * (10:ℚ) ^ (-s1) * (10:ℚ) ^ s2 := by rw [← h]
      _ = (n1:ℚ) * (10:ℚ) ^ (s2 - s1) := by
          rw [mul_assoc, ← zpow_add₀ h10, (by ring : -s1 + s2 = s2 - s1)]
  have h3 : (10:ℚ) ^ (s2 - s1) = ((10 ^ (s2 - s1).toNat : Int) : ℚ) := by
    rw [← hk, zpow_natCast]
    push_cast
    rfl
  rw [h3] at h2
  have h4 : n2 = n1 * 10 ^ (s2 - s1).toNat := by exact_mod_cast h2
  have h5 : BigDecimal.shiftIter (s2 - s1).toNat ⟨n1, s1⟩ =
      ⟨10 ^ (s2 - s1).toNat * n1, s1 + (s2 - s1).toNat⟩ := by
    have ha := intVal_shiftIter (s2 - s1).toNat ⟨n1, s1⟩
    have hb := scale_shiftIter (s2 - s1).toNat ⟨n1, s1⟩
    calc BigDecimal.shiftIter (s2 - s1).toNat ⟨n1, s1⟩
        = ⟨(BigDecimal.shiftIter (s2 - s1).toNat ⟨n1, s1⟩).intVal,
            (BigDecimal.shiftIter (s2 - s1).toNat ⟨n1, s1⟩).scale⟩ := rfl
      _ = ⟨10 ^ (s2 - s1).toNat * n1, s1 + (s2 - s1).toNat⟩ := by rw [ha, hb]
  rw [h5]
  have : 10 ^ (s2 - s1).toNat * n1 = n2 := by rw [h4]; ring
  rw [this]
  have : s1 + ((s2 - s1).toNat : Int) = s2 := by omega
  rw [this]

theorem normalizeChars_eq_of_val_eq {d1 d2 : BigDecimal} (h : d1.val = d2.val)
    (h1 : 0 ≤ d1.scale) (h2 : 0 ≤ d2.scale) :
    normalizeChars d1.toChars = normalizeChars d2.toChars := by
  rcases le_total d1.scale d2.scale with hle | hle
  · rw [← eq_shiftIter_of_val_eq h hle, normChars_shiftIter _ _ h1]
  · rw [← eq_shiftIter_of_val_eq h.symm hle, normChars_shiftIter _ _ h2]

/-! ## Lemmas: reduction to a canonical representation -/

theorem reduceAux_reduced : ∀ (fuel : Nat) (n s : Int), s.toNat ≤ fuel →
    (reduceAux fuel n s).Reduced := by
  intro fuel
  induction fuel with
  | zero =>
    intro n s h
    unfold reduceAux BigDecimal.Reduced
    simp only
    omega
  | succ fuel ih =>
    intro n s h
    unfold reduceAux
    by_cases hc : 0 < s ∧ (10 : Int) ∣ n
    · rw [if_pos hc]
      exact ih (n / 10) (s - 1) (by omega)
    · rw [if_neg hc]
      exact hc

theorem reduceAux_scale_nonneg : ∀ (fuel : Nat) (n s : Int), 0 ≤ s →
    0 ≤ (reduceAux fuel n s).scale := by
  intro fuel
  induction fuel with
  | zero => intro n s h; exact h
  | succ fuel ih =>
    intro n s h
    unfold reduceAux
    by_cases hc : 0 < s ∧ (10 : Int) ∣ n
    · rw [if_pos hc]
      exact ih (n / 10) (s - 1) (by omega)
    · rw [if_neg hc]
      exact h

theorem reduceAux_shiftIter : ∀ (fuel : Nat) (n s : Int),
    ∃ k, BigDecimal.shiftIter k (reduceAux fuel n s) = ⟨n, s⟩ := by
  intro fuel
  induction fuel with
  | zero => intro n s; exact ⟨0, rfl⟩
  | succ fuel ih =>
    intro n s
    unfold reduceAux
    by_cases hc : 0 < s ∧ (10 : Int) ∣ n
    · rw [if_pos hc]
      obtain ⟨k, hk⟩ := ih (n / 10) (s - 1)
      refine ⟨k + 1, ?_⟩
      rw [shiftIter_succ', hk]
      unfold BigDecimal.shiftRep
      simp only
      rw [Int.mul_ediv_cancel' hc.2]
      congr 1
      omega
    · rw [if_neg hc]
      exact ⟨0, rfl⟩

theorem reduce_reduced (d : BigDecimal) : d.reduce.Reduced :=
  reduceAux_reduced _ _ _ le_rfl

theorem reduce_scale_nonneg {d : BigDecimal} (h : 0 ≤ d.scale) :
    0 ≤ d.reduce.scale :=
  reduceAux_scale_nonneg _ _ _ h

theorem reduce_shiftIter (d : BigDecimal) :
    ∃ k, BigDecimal.shiftIter k d.reduce = d := by
  obtain ⟨k, hk⟩ := reduceAux_shiftIter d.scale.toNat d.intVal d.scale
  exact ⟨k, hk⟩

theorem val_reduce (d : BigDecimal) : d.reduce.val = d.val := by
  obtain ⟨k, hk⟩ := reduce_shiftIter d
  conv_rhs => rw [← hk]
  rw [val_shiftIter]

theorem normChars_reduce {d : BigDecimal} (h : 0 ≤ d.scale) :
    normalizeChars d.reduce.toChars = normalizeChars d.toChars := by
  obtain ⟨k, hk⟩ := reduce_shiftIter d
  conv_rhs => rw [← hk]
  rw [normChars_shiftIter _ _ (reduce_scale_nonneg h)]

/-! ## Lemmas: reading the value back from a rendered string -/

theorem takeWhile_no_dot {cs : List Char} (h : '.' ∉ cs) :
    cs.takeWhile (fun c => c ≠ '.') = cs := by
  rw [List.takeWhile_eq_self_iff]
  intro x hx
  simp only [ne_eq, decide_eq_true_eq]
  intro hxe
  exact h (hxe ▸ hx)

theorem dropWhile_no_dot {cs : List Char} (h : '.' ∉ cs) :
    cs.dropWhile (fun c => c ≠ '.') = [] := by
  rw [List.dropWhile_eq_nil_iff]
  intro x hx
  simp only [ne_eq, decide_eq_true_eq]
  intro hxe
  exact h (hxe ▸ hx)

theorem takeWhile_append_dot {pre post : List Char} (h : '.' ∉ pre) :
    List.takeWhile (fun c => c ≠ '.') (pre ++ '.' :: post) = pre := by
  induction pre with
  | nil => simp [List.takeWhile]
  | cons x xs ih =>
    have hx : x ≠ '.' := fun he => h (he ▸ List.mem_cons_self x xs)
    have hxs : '.' ∉ xs := fun hm => h (List.mem_cons_of_mem x hm)
    simp only [List.cons_append, List.takeWhile_cons, decide_eq_true_eq]
    rw [if_pos hx, ih hxs]

theorem dropWhile_append_dot {pre post : List Char} (h : '.' ∉ pre) :
    List.dropWhile (fun c => c ≠ '.') (pre ++ '.' :: post) = '.' :: post := by
  induction pre with
  | nil => simp [List.dropWhile]
  | cons x xs ih =>
    have hx : x ≠ '.' := fun he => h (he ▸ List.mem_cons_self x xs)
    have hxs : '.' ∉ xs := fun hm => h (List.mem_cons_of_mem x hm)
    simp only [List.cons_append, List.dropWhile_cons, decide_eq_true_eq]
    rw [if_pos hx, ih hxs]

theorem parseAbs_no_dot {body : List Char} (h : '.' ∉ body) :
    parseAbs body = charsToNat body := by
  unfold parseAbs
  rw [takeWhile_no_dot h, dropWhile_no_dot h]
  simp [charsToNat, Nat.ofDigits]

theorem parseAbs_split {pre post : List Char} (h : '.' ∉ pre) :
    parseAbs (pre ++ '.' :: post) =
      charsToNat pre + charsToNat post / 10 ^ post.length := by
  unfold parseAbs
  rw [takeWhile_append_dot h, dropWhile_append_dot h]
  rfl

theorem parseVal_dash (rest : List Char) :
    parseVal ('-' :: rest) = -(parseAbs rest) := by
  simp [parseVal]

theorem parseVal_of_head_ne {cs : List Char} (h : cs.head? ≠ some '-') :
    parseVal cs = parseAbs cs := by
  unfold parseVal
  rw [if_neg h]

theorem val_eq_div {d : BigDecimal} (h : 0 ≤ d.scale) :
    d.val = (d.intVal : ℚ) / 10 ^ d.scale.toNat := by
  unfold BigDecimal.val
  rw [show -d.scale = -((d.scale.toNat : Int)) by omega, zpow_neg, zpow_natCast,
    div_eq_mul_inv]

theorem natAbs_cast_of_neg {n : Int} (h : n < 0) :
    ((n.natAbs : ℚ)) = -(n : ℚ) := by
  have h2 : ((n.natAbs : Int)) = -n := by omega
  rw [← @Int.cast_natCast ℚ _ n.natAbs, h2, Int.cast_neg]

theorem natAbs_cast_of_nonneg {n : Int} (h : 0 ≤ n) :
    ((n.natAbs : ℚ)) = (n : ℚ) := by
  have h2 : ((n.natAbs : Int)) = n := by omega
  rw [← @Int.cast_natCast ℚ _ n.natAbs, h2]

theorem head?_ne_dash_decStr (m : Nat) : (decStr m).head? ≠ some '-' := by
  intro hc
  have hmem : '-' ∈ decStr m := List.mem_of_mem_head? hc
  obtain ⟨d, hd, he⟩ := mem_decStr hmem
  exact digitChar_ne_dash hd he.symm

theorem no_dot_toChars_scale_zero {d : BigDecimal} (h : d.scale = 0) :
    '.' ∉ d.toChars := by
  rw [toChars_case_zero h]
  intro hmem
  rcases List.mem_append.mp hmem with hsg | hdsm
  · by_cases hb : d.intVal < 0 <;> simp [hb] at hsg
  · exact dot_not_mem_decStr _ hdsm

theorem parseVal_toChars_scale_zero {d : BigDecimal} (h : d.scale = 0) :
    parseVal d.toChars = d.val := by
  rw [toChars_case_zero h]
  have hval : d.val = (d.intVal : ℚ) := by
    unfold BigDecimal.val
    rw [h]
    simp
  by_cases hs : d.intVal < 0
  · rw [if_pos hs]
    have hcons : (['-'] : List Char) ++ decStr d.intVal.natAbs =
        '-' :: decStr d.intVal.natAbs := rfl
    rw [hcons, parseVal_dash, parseAbs_no_dot (dot_not_mem_decStr _),
      charsToNat_decStr, hval, natAbs_cast_of_neg hs]
    ring
  · rw [if_neg hs]
    have hh : (([] : List Char) ++ decStr d.intVal.natAbs) =
        decStr d.intVal.natAbs := by simp
    rw [hh, parseVal_of_head_ne (head?_ne_dash_decStr _),
      parseAbs_no_dot (dot_not_mem_decStr _), charsToNat_decStr, hval,
      natAbs_cast_of_nonneg (by omega)]

theorem trimChars_of_getLast_digit {cs : List Char} {c : Char}
    (hdot : '.' ∈ cs) (hlast : cs.getLast? = some c) (h0 : c ≠ '0')
    (hdot2 : c ≠ '.') : trimChars cs = cs := by
  unfold trimChars
  rw [contains_eq_decide, decide_eq_true hdot, if_pos rfl,
    rtrimZeros_of_getLast_ne hlast h0]
  show (if cs.getLast? = some '.' then cs.dropLast else cs) = cs
  rw [hlast, if_neg (fun he => hdot2 (Option.some.inj he))]

theorem parse_arith (a b m st : Nat) (h : a * 10 ^ st + b = m) :
    (a : ℚ) + (b : ℚ) / 10 ^ st = (m : ℚ) / 10 ^ st := by
  have h10 : ((10:ℚ) ^ st) ≠ 0 := by positivity
  field_simp
  push_cast [← h]
  ring

theorem reduced_pos_facts {d : BigDecimal} (h1 : 0 < d.scale)
    (h2 : ¬ (10:Int) ∣ d.intVal) :
    trimChars d.toChars = d.toChars ∧ '.' ∈ d.toChars ∧
      d.toChars.getLast? = some (Nat.digitChar (d.intVal.natAbs % 10)) ∧
      d.intVal.natAbs % 10 ≠ 0 ∧
      parseVal d.toChars = d.val := by
  have hn : d.intVal ≠ 0 := by
    intro he
    exact h2 (by rw [he]; exact dvd_zero 10)
  have hm0 : d.intVal.natAbs ≠ 0 := by simpa using hn
  have hmdvd : ¬ (10 ∣ d.intVal.natAbs) := by
    intro hc
    exact h2 (Int.natAbs_dvd_natAbs.mp (by simpa using hc))
  have hmod : d.intVal.natAbs % 10 ≠ 0 := by
    intro hc
    exact hmdvd (Nat.dvd_of_mod_eq_zero hc)
  have hlt10 : d.intVal.natAbs % 10 < 10 := Nat.mod_lt _ (by norm_num)
  have hlastds : (decStr d.intVal.natAbs).getLast? =
      some (Nat.digitChar (d.intVal.natAbs % 10)) := decStr_getLast hm0
  have hne0 : Nat.digitChar (d.intVal.natAbs % 10) ≠ '0' :=
    digitChar_ne_zero hlt10 hmod
  have hnedot : Nat.digitChar (d.intVal.natAbs % 10) ≠ '.' := digitChar_ne_dot hlt10
  have hL1 : 1 ≤ (decStr d.intVal.natAbs).length := by
    rcases hd : decStr d.intVal.natAbs with _ | ⟨x, xs⟩
    · exact absurd hd (decStr_ne_nil _)
    · simp
  have hvald : d.val = (d.intVal : ℚ) / 10 ^ d.scale.toNat := val_eq_div (le_of_lt h1)
  rcases le_or_lt ((decStr d.intVal.natAbs).length : Int) d.scale with hbig | hmid
  · -- leading `0.` with zero padding
    have hshape := toChars_case_big hbig
    have hXeq : d.toChars = ((if d.intVal < 0 then ['-'] else []) ++
        '0' :: '.' ::
          List.replicate (d.scale - ((decStr d.intVal.natAbs).length : Int)).toNat '0')
        ++ decStr d.intVal.natAbs := by
      rw [hshape]
      simp
    have hlastX : d.toChars.getLast? =
        some (Nat.digitChar (d.intVal.natAbs % 10)) := by
      rw [hXeq, List.getLast?_append, hlastds, Option.or_some]
    have hdotX : '.' ∈ d.toChars := by
      rw [hshape]
      by_cases hb : d.intVal < 0 <;> simp [hb]
    refine ⟨trimChars_of_getLast_digit hdotX hlastX hne0 hnedot, hdotX, hlastX, hmod, ?_⟩
    have hlen : (List.replicate
        (d.scale - ((decStr d.intVal.natAbs).length : Int)).toNat '0' ++
        decStr d.intVal.natAbs).length = d.scale.toNat := by
      rw [List.length_append, List.length_replicate]
      omega
    have hcn : charsToNat (List.replicate
        (d.scale - ((decStr d.intVal.natAbs).length : Int)).toNat '0' ++
        decStr d.intVal.natAbs) = d.intVal.natAbs := by
      rw [charsToNat_append, charsToNat_replicate, charsToNat_decStr]
      simp
    have hbody : parseAbs ('0' :: '.' ::
        (List.replicate (d.scale - ((decStr d.intVal.natAbs).length : Int)).toNat '0' ++
          decStr d.intVal.natAbs)) = (d.intVal.natAbs : ℚ) / 10 ^ d.scale.toNat := by
      have hsplit : ('0' : Char) :: '.' ::
          (List.replicate (d.scale - ((decStr d.intVal.natAbs).length : Int)).toNat '0' ++
            decStr d.intVal.natAbs) = ['0'] ++ '.' ::
          (List.replicate (d.scale - ((decStr d.intVal.natAbs).length : Int)).toNat '0' ++
            decStr d.intVal.natAbs) := rfl
      rw [hsplit, parseAbs_split (by decide), hlen, hcn]
      have h0 : charsToNat ['0'] = 0 := by decide
      rw [h0]
      exact parse_arith 0 _ _ _ (by simp)
    by_cases hs : d.intVal < 0
    · rw [hshape, if_pos hs]
      have hcons : (['-'] : List Char) ++ '0' :: '.' ::
          (List.replicate (d.scale - ((decStr d.intVal.natAbs).length : Int)).toNat '0' ++
            decStr d.intVal.natAbs) = '-' :: '0' :: '.' ::
          (List.replicate (d.scale - ((decStr d.intVal.natAbs).length : Int)).toNat '0' ++
            decStr d.intVal.natAbs) := rfl
      rw [hcons, parseVal_dash, hbody, hvald, natAbs_cast_of_neg hs]
      ring
    · rw [hshape, if_neg hs, List.nil_append,
        parseVal_of_head_ne (by intro hc; simp at hc), hbody, hvald,
        natAbs_cast_of_nonneg (by omega)]
  · -- the digits straddle the decimal point
    have hshape := toChars_case_mid h1 hmid
    have ht1 : 1 ≤ (((decStr d.intVal.natAbs).length : Int) - d.scale).toNat := by omega
    have ht2 : (((decStr d.intVal.natAbs).length : Int) - d.scale).toNat <
        (decStr d.intVal.natAbs).length := by omega
    have hsplit : (decStr d.intVal.natAbs).take
          (((decStr d.intVal.natAbs).length : Int) - d.scale).toNat ++
        (decStr d.intVal.natAbs).drop
          (((decStr d.intVal.natAbs).length : Int) - d.scale).toNat =
        decStr d.intVal.natAbs := List.take_append_drop _ _
    have hpost_len : ((decStr d.intVal.natAbs).drop
        (((decStr d.intVal.natAbs).length : Int) - d.scale).toNat).length =
        d.scale.toNat := by
      rw [List.length_drop]
      omega
    have hpost_ne : (decStr d.intVal.natAbs).drop
        (((decStr d.intVal.natAbs).length : Int) - d.scale).toNat ≠ [] := by
      intro he
      have := congrArg List.length he
      rw [hpost_len] at this
      simp at this
      omega
    have hlpost : ((decStr d.intVal.natAbs).drop
        (((decStr d.intVal.natAbs).length : Int) - d.scale).toNat).getLast? =
        some (Nat.digitChar (d.intVal.natAbs % 10)) := by
      rcases hp : ((decStr d.intVal.natAbs).drop
          (((decStr d.intVal.natAbs).length : Int) - d.scale).toNat).getLast? with _ | c
      · exact absurd (List.getLast?_eq_none_iff.mp hp) hpost_ne
      · have hlds := hlastds
        rw [← hsplit, List.getLast?_append, hp, Option.or_some] at hlds
        exact hlds
    have hXeq : d.toChars = ((if d.intVal < 0 then ['-'] else []) ++
        ((decStr d.intVal.natAbs).take
          (((decStr d.intVal.natAbs).length : Int) - d.scale).toNat ++ ['.'])) ++
        (decStr d.intVal.natAbs).drop
          (((decStr d.intVal.natAbs).length : Int) - d.scale).toNat := by
      rw [hshape]
      simp
    have hlastX : d.toChars.getLast? =
        some (Nat.digitChar (d.intVal.natAbs % 10)) := by
      rw [hXeq, List.getLast?_append, hlpost, Option.or_some]
    have hdotX : '.' ∈ d.toChars := by
      rw [hshape]
      by_cases hb : d.intVal < 0 <;> simp [hb]
    refine ⟨trimChars_of_getLast_digit hdotX hlastX hne0 hnedot, hdotX, hlastX, hmod, ?_⟩
    have hnopre : '.' ∉ (decStr d.intVal.natAbs).take
        (((decStr d.intVal.natAbs).length : Int) - d.scale).toNat := by
      intro hmem
      exact dot_not_mem_decStr _ ((List.take_sublist _ _).mem hmem)
    have hcn : charsToNat ((decStr d.intVal.natAbs).take
          (((decStr d.intVal.natAbs).length : Int) - d.scale).toNat) * 10 ^ d.scale.toNat +
        charsToNat ((decStr d.intVal.natAbs).drop
          (((decStr d.intVal.natAbs).length : Int) - d.scale).toNat) =
        d.intVal.natAbs := by
      have := charsToNat_append ((decStr d.intVal.natAbs).take
          (((decStr d.intVal.natAbs).length : Int) - d.scale).toNat)
        ((decStr d.intVal.natAbs).drop
          (((decStr d.intVal.natAbs).length : Int) - d.scale).toNat)
      rw [hsplit, charsToNat_decStr, hpost_len] at this
      exact this.symm
    have hbody : parseAbs ((decStr d.intVal.natAbs).take
          (((decStr d.intVal.natAbs).length : Int) - d.scale).toNat ++ '.' ::
        (decStr d.intVal.natAbs).drop
          (((decStr d.intVal.natAbs).length : Int) - d.scale).toNat) =
        (d.intVal.natAbs : ℚ) / 10 ^ d.scale.toNat := by
      rw [parseAbs_split hnopre, hpost_len]
      exact parse_arith _ _ _ _ hcn
    have hpre_ne : (decStr d.intVal.natAbs).take
        (((decStr d.intVal.natAbs).length : Int) - d.scale).toNat ≠ [] := by
      intro he
      have hlen := congrArg List.length he
      rw [List.length_take, Nat.min_eq_left (le_of_lt ht2), List.length_nil] at hlen
      omega
    by_cases hs : d.intVal < 0
    · rw [hshape, if_pos hs]
      rw [show (['-'] : List Char) ++ ((decStr d.intVal.natAbs).take
            (((decStr d.intVal.natAbs).length : Int) - d.scale).toNat ++ '.' ::
          (decStr d.intVal.natAbs).drop
            (((decStr d.intVal.natAbs).length : Int) - d.scale).toNat) =
          '-' :: ((decStr d.intVal.natAbs).take
            (((decStr d.intVal.natAbs).length : Int) - d.scale).toNat ++ '.' ::
          (decStr d.intVal.natAbs).drop
            (((decStr d.intVal.natAbs).length : Int) - d.scale).toNat) from rfl,
        parseVal_dash, hbody, hvald, natAbs_cast_of_neg hs]
      ring
    · rw [hshape, if_neg hs, List.nil_append]
      have hhead : ((decStr d.intVal.natAbs).take
            (((decStr d.intVal.natAbs).length : Int) - d.scale).toNat ++ '.' ::
          (decStr d.intVal.natAbs).drop
            (((decStr d.intVal.natAbs).length : Int) - d.scale).toNat).head? ≠
          some '-' := by
        rw [List.head?_append]
        rcases hh : ((decStr d.intVal.natAbs).take
            (((decStr d.intVal.natAbs).length : Int) - d.scale).toNat).head? with _ | c
        · exact absurd (List.head?_eq_none_iff.mp hh) hpre_ne
        · rw [Option.or_some]
          intro hc
          have hcm : c ∈ (decStr d.intVal.natAbs).take
              (((decStr d.intVal.natAbs).length : Int) - d.scale).toNat :=
            List.mem_of_mem_head? hh
          have hcds : c ∈ decStr d.intVal.natAbs := (List.take_sublist _ _).mem hcm
          obtain ⟨k, hk, he⟩ := mem_decStr hcds
          exact digitChar_ne_dash hk (he.symm.trans (Option.some.inj hc))
      rw [parseVal_of_head_ne hhead, hbody, hvald,
        natAbs_cast_of_nonneg (by omega)]

theorem parseVal_zero_str : parseVal ['0'] = 0 := by
  rw [parseVal_of_head_ne (by decide), parseAbs_no_dot (by decide)]
  norm_num [show charsToNat ['0'] = 0 from by decide]

theorem parseVal_neg_zero_str : parseVal ['-', '0'] = 0 := by
  rw [show (['-', '0'] : List Char) = '-' :: ['0'] from rfl, parseVal_dash,
    parseAbs_no_dot (by decide)]
  norm_num [show charsToNat ['0'] = 0 from by decide]

theorem parseVal_normalizeChars (cs : List Char) :
    parseVal (normalizeChars cs) = parseVal (trimChars cs) := by
  unfold normalizeChars
  by_cases h : trimChars cs = ['-', '0']
  · rw [if_pos h, h, parseVal_zero_str, parseVal_neg_zero_str]
  · rw [if_neg h]

theorem parseVal_norm_toChars {d : BigDecimal} (hs : 0 ≤ d.scale) :
    parseVal (normalizeChars d.toChars) = d.val := by
  rw [← normChars_reduce hs, parseVal_normalizeChars, ← val_reduce d]
  by_cases hz : d.reduce.scale = 0
  · rw [trimChars_of_no_dot (no_dot_toChars_scale_zero hz)]
    exact parseVal_toChars_scale_zero hz
  · have hpos : 0 < d.reduce.scale :=
      lt_of_le_of_ne (reduce_scale_nonneg hs) (Ne.symm hz)
    have hdvd : ¬ (10:Int) ∣ d.reduce.intVal := fun hd => reduce_reduced d ⟨hpos, hd⟩
    obtain ⟨htr, _, _, _, hp⟩ := reduced_pos_facts hpos hdvd
    rw [htr, hp]

theorem val_eq_of_normalizeChars_eq {d1 d2 : BigDecimal} (h1 : 0 ≤ d1.scale)
    (h2 : 0 ≤ d2.scale)
    (h : normalizeChars d1.toChars = normalizeChars d2.toChars) :
    d1.val = d2.val := by
  rw [← parseVal_norm_toChars h1, ← parseVal_norm_toChars h2, h]

/-! ## Lemmas: the alphabet and shape of normalized keys -/

theorem mem_trimChars {cs : List Char} {c : Char} (h : c ∈ trimChars cs) :
    c ∈ cs := by
  unfold trimChars at h
  by_cases hc : cs.contains '.'
  · rw [if_pos hc] at h
    by_cases hl : (rtrimZeros cs).getLast? = some '.'
    · rw [if_pos hl] at h
      exact mem_rtrimZeros ((List.dropLast_sublist _).mem h)
    · rw [if_neg hl] at h
      exact mem_rtrimZeros h
  · rwa [if_neg hc] at h

theorem mem_normalizeChars {cs : List Char} {c : Char}
    (h : c ∈ normalizeChars cs) : c ∈ cs ∨ c = '0' := by
  unfold normalizeChars at h
  by_cases he : trimChars cs = ['-', '0']
  · rw [if_pos he] at h
    simp at h
    exact Or.inr h
  · rw [if_neg he] at h
    exact Or.inl (mem_trimChars h)

theorem mem_toChars {d : BigDecimal} {c : Char} (h : c ∈ d.toChars) :
    c = '-' ∨ c = '.' ∨ ∃ k, k < 10 ∧ c = Nat.digitChar k := by
  have hsgn : ∀ x : Char, x ∈ (if d.intVal < 0 then ['-'] else ([] : List Char)) →
      x = '-' := by
    intro x hx
    by_cases hb : d.intVal < 0 <;> simp [hb] at hx
    exact hx
  have hds : ∀ x : Char, x ∈ decStr d.intVal.natAbs →
      ∃ k, k < 10 ∧ x = Nat.digitChar k := fun x hx => mem_decStr hx
  by_cases hneg : d.scale < 0
  · rw [toChars_case_neg hneg] at h
    rcases List.mem_append.mp h with hx | hx
    · exact Or.inl (hsgn c hx)
    · rcases List.mem_append.mp hx with hy | hy
      · exact Or.inr (Or.inr (hds c hy))
      · rw [List.mem_replicate] at hy
        exact Or.inr (Or.inr ⟨0, by norm_num, hy.2⟩)
  · push_neg at hneg
    rcases le_or_lt ((decStr d.intVal.natAbs).length : Int) d.scale with hbig | hmid
    · rw [toChars_case_big hbig] at h
      rcases List.mem_append.mp h with hx | hx
      · exact Or.inl (hsgn c hx)
      · rcases List.mem_cons.mp hx with hy | hy
        · exact Or.inr (Or.inr ⟨0, by norm_num, hy⟩)
        · rcases List.mem_cons.mp hy with hz | hz
          · exact Or.inr (Or.inl hz)
          · rcases List.mem_append.mp hz with hw | hw
            · rw [List.mem_replicate] at hw
              exact Or.inr (Or.inr ⟨0, by norm_num, hw.2⟩)
            · exact Or.inr (Or.inr (hds c hw))
    · by_cases hz : d.scale = 0
      · rw [toChars_case_zero hz] at h
        rcases List.mem_append.mp h with hx | hx
        · exact Or.inl (hsgn c hx)
        · exact Or.inr (Or.inr (hds c hx))
      · have hpos : 0 < d.scale := lt_of_le_of_ne hneg (Ne.symm hz)
        rw [toChars_case_mid hpos hmid] at h
        rcases List.mem_append.mp h with hx | hx
        · exact Or.inl (hsgn c hx)
        · rcases List.mem_append.mp hx with hy | hy
          · exact Or.inr (Or.inr (hds c ((List.take_sublist _ _).mem hy)))
          · rcases List.mem_cons.mp hy with hw | hw
            · exact Or.inr (Or.inl hw)
            · exact Or.inr (Or.inr (hds c ((List.drop_sublist _ _).mem hw)))

theorem plus_not_mem_normalizeChars (d : BigDecimal) :
    '+' ∉ normalizeChars d.toChars := by
  intro h
  rcases mem_normalizeChars h with hmem | h0
  · rcases mem_toChars hmem with h1 | h2 | ⟨k, hk, he⟩
    · exact absurd h1 (by decide)
    · exact absurd h2 (by decide)
    · exact digitChar_ne_plus hk he.symm
  · exact absurd h0 (by decide)

theorem normalizeChars_ne_neg_zero (cs : List Char) :
    normalizeChars cs ≠ ['-', '0'] := by
  unfold normalizeChars
  by_cases he : trimChars cs = ['-', '0']
  · rw [if_pos he]
    decide
  · rw [if_neg he]
    exact he

theorem norm_ends {d : BigDecimal} (hs : 0 ≤ d.scale)
    (hdot : '.' ∈ normalizeChars d.toChars) :
    (normalizeChars d.toChars).getLast? ≠ some '0' ∧
      (normalizeChars d.toChars).getLast? ≠ some '.' := by
  rw [← normChars_reduce hs] at hdot ⊢
  unfold normalizeChars at hdot ⊢
  by_cases he : trimChars d.reduce.toChars = ['-', '0']
  · rw [if_pos he] at hdot
    simp at hdot
  · rw [if_neg he] at hdot ⊢
    by_cases hz : d.reduce.scale = 0
    · rw [trimChars_of_no_dot (no_dot_toChars_scale_zero hz)] at hdot
      exact absurd hdot (no_dot_toChars_scale_zero hz)
    · have hpos : 0 < d.reduce.scale :=
        lt_of_le_of_ne (reduce_scale_nonneg hs) (Ne.symm hz)
      have hdvd : ¬ (10:Int) ∣ d.reduce.intVal :=
        fun hd => reduce_reduced d ⟨hpos, hd⟩
      obtain ⟨htr, _, hlast, hmod, _⟩ := reduced_pos_facts hpos hdvd
      rw [htr, hlast]
      have hlt : d.reduce.intVal.natAbs % 10 < 10 := Nat.mod_lt _ (by norm_num)
      exact ⟨fun hc => digitChar_ne_zero hlt hmod (Option.some.inj hc),
        fun hc => digitChar_ne_dot hlt (Option.some.inj hc)⟩

theorem norm_no_dot_of_int {d : BigDecimal} (hs : 0 ≤ d.scale)
    (hden : d.val.den = 1) : '.' ∉ normalizeChars d.toChars := by
  rw [← normChars_reduce hs]
  intro hmem
  have hmem2 : '.' ∈ d.reduce.toChars := by
    rcases mem_normalizeChars hmem with hx | hx
    · exact hx
    · exact absurd hx (by decide)
  by_cases hz : d.reduce.scale = 0
  · exact absurd hmem2 (no_dot_toChars_scale_zero hz)
  · have hpos : 0 < d.reduce.scale :=
      lt_of_le_of_ne (reduce_scale_nonneg hs) (Ne.symm hz)
    have hdvd : ¬ (10:Int) ∣ d.reduce.intVal :=
      fun hd => reduce_reduced d ⟨hpos, hd⟩
    -- an irreducible fraction with a positive power of ten in the denominator
    -- cannot be an integer
    have hv : d.reduce.val = d.val := val_reduce d
    have hq : ((d.val.num : ℚ)) = d.val := (Rat.den_eq_one_iff _).mp hden
    have hvd : d.reduce.val = (d.reduce.intVal : ℚ) / 10 ^ d.reduce.scale.toNat :=
      val_eq_div (le_of_lt hpos)
    have h10 : ((10:ℚ) ^ d.reduce.scale.toNat) ≠ 0 := by positivity
    have hcast : (d.reduce.intVal : ℚ) = (d.val.num : ℚ) * 10 ^ d.reduce.scale.toNat := by
      have := hvd.symm.trans (hv.trans hq.symm)
      field_simp at this
      linarith [this]
    have hint : d.reduce.intVal = d.val.num * 10 ^ d.reduce.scale.toNat := by
      exact_mod_cast hcast
    apply hdvd
    rw [hint]
    have hst : 1 ≤ d.reduce.scale.toNat := by omega
    exact Dvd.dvd.mul_left (dvd_pow_self 10 (by omega)) _

/-! ## Lemmas: the association-list registry -/

theorem lookup_cons_self {k : String} {v : StationAssignment}
    {m : List (String × StationAssignment)} : ((k, v) :: m).lookup k = some v := by
  simp [List.lookup]

theorem lookup_cons_ne {k k' : String} {v : StationAssignment}
    {m : List (String × StationAssignment)} (h : k' ≠ k) :
    ((k, v) :: m).lookup k' = m.lookup k' := by
  simp [List.lookup, beq_eq_false_iff_ne.mpr h]

theorem lookup_mapInsert_self (k : String) (v : StationAssignment)
    (m : List (String × StationAssignment)) : (mapInsert k v m).lookup k = some v := by
  unfold mapInsert
  exact lookup_cons_self

theorem eraseKey_keys_not_mem (k : String) (m : List (String × StationAssignment)) :
    k ∉ (eraseKey k m).map Prod.fst := by
  intro h
  obtain ⟨p, hp, he⟩ := List.mem_map.mp h
  unfold eraseKey at hp
  rw [List.mem_filter] at hp
  have := hp.2
  simp at this
  exact this (he ▸ rfl)

theorem lookup_eraseKey_ne {k k' : String} {m : List (String × StationAssignment)}
    (h : k' ≠ k) : (eraseKey k m).lookup k' = m.lookup k' := by
  induction m with
  | nil => rfl
  | cons p rest ih =>
    obtain ⟨kp, vp⟩ := p
    unfold eraseKey
    by_cases hk : kp = k
    · subst hk
      rw [List.filter_cons_of_neg (by simp)]
      rw [lookup_cons_ne (by exact fun he => h (he ▸ rfl))]
      exact ih
    · rw [List.filter_cons_of_pos (by simpa using hk)]
      by_cases he : k' = kp
      · subst he
        rw [lookup_cons_self, lookup_cons_self]
      · rw [lookup_cons_ne he, lookup_cons_ne he]
        exact ih

theorem lookup_mapInsert_ne {k k' : String} {v : StationAssignment}
    {m : List (String × StationAssignment)} (h : k' ≠ k) :
    (mapInsert k v m).lookup k' = m.lookup k' := by
  unfold mapInsert
  rw [lookup_cons_ne h, lookup_eraseKey_ne h]

theorem eraseKey_of_not_mem_keys {k : String}
    {m : List (String × StationAssignment)} (h : k ∉ m.map Prod.fst) :
    eraseKey k m = m := by
  unfold eraseKey
  apply List.filter_eq_self.mpr
  intro p hp
  simp only [ne_eq, decide_eq_true_eq]
  intro he
  exact h (List.mem_map.mpr ⟨p, hp, he⟩)

theorem lookup_eq_none_of_not_mem_keys {k : String}
    {m : List (String × StationAssignment)} (h : k ∉ m.map Prod.fst) :
    m.lookup k = none := by
  induction m with
  | nil => rfl
  | cons p rest ih =>
    obtain ⟨kp, vp⟩ := p
    have hk : k ≠ kp := by
      intro he
      exact h (by simp [he])
    rw [lookup_cons_ne hk]
    exact ih (fun hm => h (by simp; right; simpa using hm))

theorem nodupKeys_eraseKey {k : String} {m : List (String × StationAssignment)}
    (h : (m.map Prod.fst).Nodup) : ((eraseKey k m).map Prod.fst).Nodup := by
  have hsub : (eraseKey k m).Sublist m := List.filter_sublist m
  exact (hsub.map Prod.fst).nodup h

theorem nodupKeys_mapInsert {k : String} {v : StationAssignment}
    {m : List (String × StationAssignment)} (h : (m.map Prod.fst).Nodup) :
    ((mapInsert k v m).map Prod.fst).Nodup := by
  unfold mapInsert
  rw [List.map_cons]
  exact List.nodup_cons.mpr ⟨eraseKey_keys_not_mem k m, nodupKeys_eraseKey h⟩

theorem countOwner_cons (o : B64) (k : String) (v : StationAssignment)
    (m : List (String × StationAssignment)) :
    countOwner o ((k, v) :: m) =
      (if v.owner_public_key = o then 1 else 0) + countOwner o m := by
  unfold countOwner
  by_cases ho : v.owner_public_key = o
  · rw [List.filter_cons_of_pos (by simpa using ho), if_pos ho]
    simp [Nat.add_comm]
  · rw [List.filter_cons_of_neg (by simpa using ho), if_neg ho]
    simp

theorem countOwner_le_of_sublist {o : B64} {m1 m2 : List (String × StationAssignment)}
    (h : m1.Sublist m2) : countOwner o m1 ≤ countOwner o m2 :=
  (h.filter _).length_le

theorem countOwner_eraseKey_le (o : B64) (k : String)
    (m : List (String × StationAssignment)) :
    countOwner o (eraseKey k m) ≤ countOwner o m :=
  countOwner_le_of_sublist (List.filter_sublist m)

theorem countOwner_eraseKey_of_lookup {o : B64} {k : String} {ex : StationAssignment}
    {m : List (String × StationAssignment)} (hnd : (m.map Prod.fst).Nodup)
    (hlk : m.lookup k = some ex) :
    countOwner o m =
      countOwner o (eraseKey k m) + (if ex.owner_public_key = o then 1 else 0) := by
  induction m with
  | nil => simp [List.lookup] at hlk
  | cons p rest ih =>
    obtain ⟨kp, vp⟩ := p
    rw [List.map_cons, List.nodup_cons] at hnd
    by_cases hk : k = kp
    · subst hk
      rw [lookup_cons_self] at hlk
      have hex : vp = ex := Option.some.inj hlk
      subst hex
      unfold eraseKey
      rw [List.filter_cons_of_neg (by simp)]
      have : List.filter (fun p => decide (p.1 ≠ k)) rest = rest := by
        have := eraseKey_of_not_mem_keys (k := k) (m := rest) hnd.1
        unfold eraseKey at this
        exact this
      rw [this, countOwner_cons]
      omega
    · rw [lookup_cons_ne hk] at hlk
      unfold eraseKey
      rw [List.filter_cons_of_pos (by simp; exact fun he => hk (he ▸ rfl))]
      rw [countOwner_cons]
      have := ih hnd.2 hlk
      unfold eraseKey at this
      rw [countOwner_cons]
      omega

theorem countOwner_mapInsert_of_lookup_some {o : B64} {k : String}
    {v ex : StationAssignment} {m : List (String × StationAssignment)}
    (hnd : (m.map Prod.fst).Nodup) (hlk : m.lookup k = some ex)
    (howner : ex.owner_public_key = v.owner_public_key) :
    countOwner o (mapInsert k v m) = countOwner o m := by
  unfold mapInsert
  rw [countOwner_cons, countOwner_eraseKey_of_lookup hnd hlk, howner]
  omega

theorem not_mem_keys_of_lookup_eq_none {k : String}
    {m : List (String × StationAssignment)} (h : m.lookup k = none) :
    k ∉ m.map Prod.fst := by
  induction m with
  | nil => simp
  | cons p rest ih =>
    obtain ⟨kp, vp⟩ := p
    by_cases hk : k = kp
    · subst hk
      rw [lookup_cons_self] at h
      exact Option.noConfusion h
    · rw [lookup_cons_ne hk] at h
      intro hm
      rcases List.mem_map.mp hm with ⟨q, hq, he⟩
      rcases List.mem_cons.mp hq with h1 | h1
      · rw [h1] at he
        exact hk (by simpa using he.symm)
      · exact ih h (List.mem_map.mpr ⟨q, h1, he⟩)

theorem countOwner_mapInsert_of_lookup_none {o : B64} {k : String}
    {v : StationAssignment} {m : List (String × StationAssignment)}
    (hlk : m.lookup k = none) :
    countOwner o (mapInsert k v m) =
      countOwner o m + (if v.owner_public_key = o then 1 else 0) := by
  unfold mapInsert
  rw [countOwner_cons]
  rw [eraseKey_of_not_mem_keys (not_mem_keys_of_lookup_eq_none hlk)]
  omega

/-! ## Lemmas: the shape of `accept_advertisement` -/

theorem acceptChecked_shape (st : AppState) (now : Int) (ad : StationAdvertisement)
    (key : String) :
    (∃ e, acceptChecked st now ad key = (.error e, st)) ∨
    acceptChecked st now ad key = acceptInsert st now ad key := by
  unfold acceptChecked
  dsimp only
  repeat' split
  all_goals first
    | (left; exact ⟨_, rfl⟩)
    | (right; rfl)

theorem acceptChecked_seen (st : AppState) (now : Int) (ad : StationAdvertisement)
    (key : String) :
    (acceptChecked st now ad key).2.seen_messages = st.seen_messages := by
  rcases acceptChecked_shape st now ad key with ⟨e, he⟩ | he <;> rw [he]
  rfl

theorem acceptChecked_max (st : AppState) (now : Int) (ad : StationAdvertisement)
    (key : String) :
    (acceptChecked st now ad key).2.max_frequencies_per_owner =
      st.max_frequencies_per_owner := by
  rcases acceptChecked_shape st now ad key with ⟨e, he⟩ | he <;> rw [he]
  rfl

theorem acceptChecked_ok {st st' : AppState} {now : Int} {ad : StationAdvertisement}
    {key : String} {a : StationAssignment}
    (h : acceptChecked st now ad key = (.ok a, st')) :
    a = mkAssignment now ad ∧
    st' = { st with
      registry := mapInsert key (mkAssignment now ad) st.registry
      events := st.events ++ [⟨"upsert", mkAssignment now ad⟩] } := by
  rcases acceptChecked_shape st now ad key with ⟨e, he⟩ | he
  · rw [he] at h
    simp at h
  · rw [he] at h
    unfold acceptInsert at h
    have h1 := congrArg Prod.fst h
    have h2 := congrArg Prod.snd h
    simp only at h1 h2
    exact ⟨(Except.ok.inj h1).symm, h2.symm⟩

theorem acceptChecked_error_state {st st' : AppState} {now : Int}
    {ad : StationAdvertisement} {key : String} {e : RegistryError}
    (h : acceptChecked st now ad key = (.error e, st')) : st' = st := by
  rcases acceptChecked_shape st now ad key with ⟨e', he⟩ | he
  · rw [he] at h
    exact (congrArg Prod.snd h).symm
  · rw [he] at h
    unfold acceptInsert at h
    have h1 := congrArg Prod.fst h
    simp at h1

theorem accept_eq (st : AppState) (now : Int) (ad : StationAdvertisement) :
    accept_advertisement st now ad =
      if st.seen_messages.contains ad.message_id then
        match st.registry.lookup (normalize_frequency_key ad.frequency) with
        | some existing => (.ok existing, st)
        | none => acceptChecked st now ad (normalize_frequency_key ad.frequency)
      else
        acceptChecked
          { st with seen_messages := ad.message_id :: st.seen_messages } now ad
          (normalize_frequency_key ad.frequency) := by
  unfold accept_advertisement
  by_cases hc : st.seen_messages.contains ad.message_id
  · simp only [hc, if_true, if_pos]
  · simp only [hc, if_false, if_neg, Bool.false_eq_true]

theorem acceptChecked_conflict {st : AppState} {now : Int}
    {ad : StationAdvertisement} {key : String} {vk : VerifyingKey} {sg : Signature}
    {ex : StationAssignment}
    (hpk : parse_public_key_b64 ad.owner_public_key = some vk)
    (hsg : parse_sig_b64 ad.signature = some sg)
    (hver : verify_bytes vk
      (canonicalize_ad_bytes "advertise" key (toString ad.station_id)
        ad.stream_url (rfc3339 ad.advertised_at) ad.ttl_seconds) sg = true)
    (hlk : st.registry.lookup key = some ex)
    (hst : ex.station_id ≠ ad.station_id) :
    acceptChecked st now ad key =
      (.error (.FrequencyConflict key ex.station_id), st) := by
  unfold acceptChecked
  simp only [hpk, hsg, hlk, hver]
  rw [if_neg (by simp), if_pos hst]

theorem acceptChecked_mismatch {st : AppState} {now : Int}
    {ad : StationAdvertisement} {key : String} {vk : VerifyingKey} {sg : Signature}
    {ex : StationAssignment}
    (hpk : parse_public_key_b64 ad.owner_public_key = some vk)
    (hsg : parse_sig_b64 ad.signature = some sg)
    (hver : verify_bytes vk
      (canonicalize_ad_bytes "advertise" key (toString ad.station_id)
        ad.stream_url (rfc3339 ad.advertised_at) ad.ttl_seconds) sg = true)
    (hlk : st.registry.lookup key = some ex)
    (hst : ex.station_id = ad.station_id)
    (how : ex.owner_public_key ≠ ad.owner_public_key) :
    acceptChecked st now ad key = (.error .OwnerMismatch, st) := by
  unfold acceptChecked
  simp only [hpk, hsg, hlk, hver]
  rw [if_neg (by simp), if_neg (by simp [hst]), if_pos how]

theorem acceptChecked_cap {st : AppState} {now : Int}
    {ad : StationAdvertisement} {key : String} {vk : VerifyingKey} {sg : Signature}
    (hpk : parse_public_key_b64 ad.owner_public_key = some vk)
    (hsg : parse_sig_b64 ad.signature = some sg)
    (hver : verify_bytes vk
      (canonicalize_ad_bytes "advertise" key (toString ad.station_id)
        ad.stream_url (rfc3339 ad.advertised_at) ad.ttl_seconds) sg = true)
    (hlk : st.registry.lookup key = none)
    (hcap : countOwner ad.owner_public_key st.registry ≥
      st.max_frequencies_per_owner) :
    acceptChecked st now ad key = (.error .OwnerCapExceeded, st) := by
  unfold acceptChecked
  simp only [hpk, hsg, hlk, hver]
  rw [if_neg (by simp), if_pos hcap]

/-! ## Lemmas: the shape of `release_assignment` and `expire_assignments` -/

theorem release_shape (st : AppState) (k : String) (sid : Nat) (sg : B64) :
    release_assignment st k sid sg = (false, st) ∨
    ∃ a, st.registry.lookup k = some a ∧
      release_assignment st k sid sg =
        (true, { st with
                 registry := eraseKey k st.registry
                 events := st.events ++ [⟨"delete", a⟩] }) := by
  unfold release_assignment
  dsimp only
  repeat' split
  all_goals first
    | (left; rfl)
    | (right; exact ⟨_, (by assumption), rfl⟩)

theorem foldl_expireStep_seen (ks : List String) (st : AppState) :
    (List.foldl expireStep st ks).seen_messages = st.seen_messages := by
  induction ks generalizing st with
  | nil => rfl
  | cons k ks ih =>
    rw [List.foldl_cons, ih]
    unfold expireStep
    split <;> rfl

theorem foldl_expireStep_max (ks : List String) (st : AppState) :
    (List.foldl expireStep st ks).max_frequencies_per_owner =
      st.max_frequencies_per_owner := by
  induction ks generalizing st with
  | nil => rfl
  | cons k ks ih =>
    rw [List.foldl_cons, ih]
    unfold expireStep
    split <;> rfl

theorem appState_ext {s1 s2 : AppState}
    (h1 : s1.max_frequencies_per_owner = s2.max_frequencies_per_owner)
    (h2 : s1.registry = s2.registry) (h3 : s1.seen_messages = s2.seen_messages)
    (h4 : s1.events = s2.events) : s1 = s2 := by
  cases s1
  cases s2
  simp_all

theorem foldl_expireStep_cons_not_mem :
    ∀ (ks : List String) (mx : Nat) (sn : List Nat) (ev : List RegistryEvent)
      (reg : List (String × StationAssignment)) (k : String)
      (v : StationAssignment), k ∉ ks →
    List.foldl expireStep ⟨mx, (k, v) :: reg, sn, ev⟩ ks =
      ⟨mx, (k, v) :: (List.foldl expireStep ⟨mx, reg, sn, ev⟩ ks).registry, sn,
        (List.foldl expireStep ⟨mx, reg, sn, ev⟩ ks).events⟩ := by
  intro ks
  induction ks with
  | nil =>
    intro mx sn ev reg k v _
    rfl
  | cons k' ks ih =>
    intro mx sn ev reg k v hk
    have hk1 : k ≠ k' := fun he => hk (he ▸ List.mem_cons_self k' ks)
    have hk2 : k ∉ ks := fun hm => hk (List.mem_cons_of_mem k' hm)
    rw [List.foldl_cons, List.foldl_cons]
    rcases hlk : reg.lookup k' with _ | a
    · have hL : expireStep ⟨mx, (k, v) :: reg, sn, ev⟩ k' =
          ⟨mx, (k, v) :: reg, sn, ev⟩ := by
        unfold expireStep
        simp only [lookup_cons_ne (Ne.symm hk1), hlk]
      have hR : expireStep ⟨mx, reg, sn, ev⟩ k' = ⟨mx, reg, sn, ev⟩ := by
        unfold expireStep
        simp only [hlk]
      rw [hL, hR]
      exact ih mx sn ev reg k v hk2
    · have hL : expireStep ⟨mx, (k, v) :: reg, sn, ev⟩ k' =
          ⟨mx, (k, v) :: eraseKey k' reg, sn,
            ev ++ [⟨"delete", a⟩]⟩ := by
        unfold expireStep
        simp only [lookup_cons_ne (Ne.symm hk1), hlk]
        unfold eraseKey
        rw [List.filter_cons_of_pos (by simp; exact fun he => hk1 (he ▸ rfl))]
      have hR : expireStep ⟨mx, reg, sn, ev⟩ k' =
          ⟨mx, eraseKey k' reg, sn, ev ++ [⟨"delete", a⟩]⟩ := by
        unfold expireStep
        simp only [hlk]
      rw [hL, hR]
      exact ih mx sn (ev ++ [⟨"delete", a⟩]) (eraseKey k' reg) k v hk2

theorem foldl_expire_main (now : Int) :
    ∀ (reg : List (String × StationAssignment)) (mx : Nat) (sn : List Nat)
      (ev : List RegistryEvent), (reg.map Prod.fst).Nodup →
    List.foldl expireStep ⟨mx, reg, sn, ev⟩
        ((reg.filter (fun p => p.2.expires_at ≤ now)).map Prod.fst) =
      ⟨mx, reg.filter (fun p => ¬ p.2.expires_at ≤ now), sn,
        ev ++ (reg.filter (fun p => p.2.expires_at ≤ now)).map
          (fun p => ⟨"delete", p.2⟩)⟩ := by
  intro reg
  induction reg with
  | nil =>
    intro mx sn ev _
    simp
  | cons p rest ih =>
    intro mx sn ev hnd
    obtain ⟨k, a⟩ := p
    rw [List.map_cons, List.nodup_cons] at hnd
    by_cases hp : a.expires_at ≤ now
    · rw [List.filter_cons_of_pos (by simpa using hp), List.map_cons, List.foldl_cons]
      have hstep : expireStep ⟨mx, (k, a) :: rest, sn, ev⟩ k =
          ⟨mx, rest, sn, ev ++ [(⟨"delete", a⟩ : RegistryEvent)]⟩ := by
        unfold expireStep
        simp only [lookup_cons_self]
        unfold eraseKey
        rw [List.filter_cons_of_neg (by simp)]
        have := eraseKey_of_not_mem_keys (k := k) (m := rest) hnd.1
        unfold eraseKey at this
        rw [this]
      rw [hstep, ih mx sn (ev ++ [(⟨"delete", a⟩ : RegistryEvent)]) hnd.2,
        List.filter_cons_of_neg (by simpa using hp)]
      simp
    · rw [List.filter_cons_of_neg (by simpa using hp)]
      have hknotin : k ∉ (rest.filter (fun p => p.2.expires_at ≤ now)).map Prod.fst := by
        intro hm
        obtain ⟨q, hq, he⟩ := List.mem_map.mp hm
        exact hnd.1 (List.mem_map.mpr ⟨q, (List.filter_sublist rest).mem hq, he⟩)
      rw [foldl_expireStep_cons_not_mem _ mx sn ev rest k a hknotin,
        ih mx sn ev hnd.2, List.filter_cons_of_pos (by simpa using hp)]

/-! ## Lemmas: preservation of the registry invariant -/

theorem acceptChecked_ok_strong {st st' : AppState} {now : Int}
    {ad : StationAdvertisement} {key : String} {a : StationAssignment}
    (h : acceptChecked st now ad key = (.ok a, st')) :
    (∀ ex, st.registry.lookup key = some ex →
      ex.station_id = ad.station_id ∧
        ex.owner_public_key = ad.owner_public_key) ∧
    (st.registry.lookup key = none →
      countOwner ad.owner_public_key st.registry <
        st.max_frequencies_per_owner) := by
  unfold acceptChecked at h
  dsimp only at h
  split at h
  · simp at h
  · split at h
    · simp at h
    · split at h
      · simp at h
      · split at h
        · split at h
          · simp at h
          · split at h
            · simp at h
            · rename_i ex hex hst how
              constructor
              · intro ex' hex'
                have he : ex = ex' := by
                  rw [hex] at hex'
                  exact Option.some.inj hex'
                subst he
                exact ⟨not_not.mp (by simpa using hst), not_not.mp (by simpa using how)⟩
              · intro hnone
                rw [hex] at hnone
                exact Option.noConfusion hnone
        · split at h
          · simp at h
          · rename_i hnone hcap
            constructor
            · intro ex' hex'
              rw [hnone] at hex'
              exact Option.noConfusion hex'
            · intro _
              omega

theorem acceptChecked_preserves_RegInv (st : AppState) (now : Int)
    (ad : StationAdvertisement) (key : String) (h : RegInv st) :
    RegInv (acceptChecked st now ad key).2 := by
  rcases hsurj : acceptChecked st now ad key with ⟨res, st'⟩
  rcases res with e | a
  · rw [acceptChecked_error_state hsurj]
    exact h
  · obtain ⟨ha, hst⟩ := acceptChecked_ok hsurj
    obtain ⟨hsome, hnone⟩ := acceptChecked_ok_strong hsurj
    rw [hst]
    refine ⟨?_, ?_⟩
    · show ((mapInsert key (mkAssignment now ad) st.registry).map Prod.fst).Nodup
      exact nodupKeys_mapInsert h.1
    · intro o
      show countOwner o (mapInsert key (mkAssignment now ad) st.registry) ≤
        st.max_frequencies_per_owner
      rcases hlk : st.registry.lookup key with _ | ex
      · rw [countOwner_mapInsert_of_lookup_none hlk]
        by_cases ho : (mkAssignment now ad).owner_public_key = o
        · rw [if_pos ho]
          have hcap := hnone hlk
          have hoeq : (mkAssignment now ad).owner_public_key = ad.owner_public_key := rfl
          rw [hoeq] at ho
          subst ho
          have := h.2 ad.owner_public_key
          omega
        · rw [if_neg ho]
          have := h.2 o
          omega
      · have howner : ex.owner_public_key = (mkAssignment now ad).owner_public_key :=
          (hsome ex hlk).2
        rw [countOwner_mapInsert_of_lookup_some h.1 hlk howner]
        exact h.2 o

theorem accept_preserves_RegInv (st : AppState) (now : Int)
    (ad : StationAdvertisement) (h : RegInv st) :
    RegInv (accept_advertisement st now ad).2 := by
  rw [accept_eq]
  by_cases hc : st.seen_messages.contains ad.message_id
  · rw [if_pos hc]
    rcases hlk : st.registry.lookup (normalize_frequency_key ad.frequency) with _ | ex
    · exact acceptChecked_preserves_RegInv st now ad _ h
    · exact h
  · rw [if_neg hc]
    exact acceptChecked_preserves_RegInv
      { st with seen_messages := ad.message_id :: st.seen_messages } now ad _ h

theorem release_preserves_RegInv (st : AppState) (k : String) (sid : Nat)
    (sg : B64) (h : RegInv st) : RegInv (release_assignment st k sid sg).2 := by
  rcases release_shape st k sid sg with he | ⟨a, _, he⟩ <;> rw [he]
  · exact h
  · constructor
    · exact nodupKeys_eraseKey h.1
    · intro o
      exact le_trans (countOwner_eraseKey_le o k st.registry) (h.2 o)

theorem expire_preserves_RegInv (st : AppState) (now : Int) (h : RegInv st) :
    RegInv (expire_assignments st now) := by
  obtain ⟨mx, reg, sn, ev⟩ := st
  obtain ⟨hnd, hcap⟩ := h
  unfold expire_assignments
  dsimp only
  rw [foldl_expire_main now reg mx sn ev hnd]
  constructor
  · exact ((List.filter_sublist reg).map Prod.fst).nodup hnd
  · intro o
    exact le_trans (countOwner_le_of_sublist (List.filter_sublist reg)) (hcap o)

theorem run_preserves_RegInv : ∀ (ops : List Op) (st : AppState), RegInv st →
    (∀ op ∈ ops, op.noImport) → RegInv (run st ops) := by
  intro ops
  induction ops with
  | nil =>
    intro st h _
    exact h
  | cons op ops ih =>
    intro st h hops
    unfold run
    apply ih
    · cases op with
      | accept now ad => exact accept_preserves_RegInv st now ad h
      | release k sid sg => exact release_preserves_RegInv st k sid sg h
      | expire now => exact expire_preserves_RegInv st now h
      | importOp a => exact (hops _ (List.mem_cons_self _ _)).elim
    · intro op' hop'
      exact hops op' (List.mem_cons_of_mem _ hop')

theorem contains_cons_self (m : Nat) (l : List Nat) :
    (m :: l).contains m = true := by
  simp [List.contains]

theorem accept_replay {st st1 : AppState} {now : Int} {ad : StationAdvertisement}
    {a : StationAssignment}
    (hfresh : st.seen_messages.contains ad.message_id = false)
    (hok : accept_advertisement st now ad = (.ok a, st1)) :
    a = mkAssignment now ad ∧
    st1.registry = mapInsert (normalize_frequency_key ad.frequency)
      (mkAssignment now ad) st.registry ∧
    st1.seen_messages = ad.message_id :: st.seen_messages ∧
    st1.events = st.events ++ [⟨"upsert", mkAssignment now ad⟩] ∧
    st1.max_frequencies_per_owner = st.max_frequencies_per_owner ∧
    ∀ now', accept_advertisement st1 now' ad = (.ok a, st1) := by
  rw [accept_eq, hfresh] at hok
  simp only [Bool.false_eq_true, if_false] at hok
  obtain ⟨ha, hst⟩ := acceptChecked_ok hok
  subst ha
  have hreg : st1.registry = mapInsert (normalize_frequency_key ad.frequency)
      (mkAssignment now ad) st.registry := by rw [hst]
  have hseen : st1.seen_messages = ad.message_id :: st.seen_messages := by rw [hst]
  have hev : st1.events = st.events ++ [⟨"upsert", mkAssignment now ad⟩] := by rw [hst]
  have hmax : st1.max_frequencies_per_owner = st.max_frequencies_per_owner := by rw [hst]
  refine ⟨rfl, hreg, hseen, hev, hmax, ?_⟩
  intro now'
  rw [accept_eq, hseen, contains_cons_self, if_pos rfl, hreg,
    lookup_mapInsert_self]

theorem import_eq (st : AppState) (a : StationAssignment) :
    import_assignment st a = { st with
      registry := mapInsert (normalize_frequency_key a.frequency) a st.registry
      events := st.events ++ [⟨"upsert", a⟩] } := by
  unfold import_assignment
  dsimp only
  split
  · split <;> rfl
  · rfl

theorem applyOp_max (st : AppState) (op : Op) :
    (applyOp st op).max_frequencies_per_owner = st.max_frequencies_per_owner := by
  cases op with
  | accept now ad =>
    show (accept_advertisement st now ad).2.max_frequencies_per_owner = _
    rw [accept_eq]
    by_cases hc : st.seen_messages.contains ad.message_id
    · rw [if_pos hc]
      rcases hlk : st.registry.lookup (normalize_frequency_key ad.frequency) with _ | ex
      · exact acceptChecked_max st now ad _
      · rfl
    · rw [if_neg hc]
      exact acceptChecked_max _ now ad _
  | release k sid sg =>
    show (release_assignment st k sid sg).2.max_frequencies_per_owner = _
    rcases release_shape st k sid sg with he | ⟨a, _, he⟩ <;> rw [he]
  | expire now =>
    show (expire_assignments st now).max_frequencies_per_owner = _
    unfold expire_assignments
    exact foldl_expireStep_max _ st
  | importOp a =>
    show (import_assignment st a).max_frequencies_per_owner = _
    rw [import_eq]

theorem run_max : ∀ (ops : List Op) (st : AppState),
    (run st ops).max_frequencies_per_owner = st.max_frequencies_per_owner := by
  intro ops
  induction ops with
  | nil => intro st; rfl
  | cons op ops ih =>
    intro st
    unfold run
    rw [ih, applyOp_max]

theorem releaseOk_lookup {st : AppState} {k : String} {sid : Nat} {sg : B64}
    (h : releaseOk st k sid sg = true) : ∃ a, st.registry.lookup k = some a := by
  unfold releaseOk at h
  rcases hlk : st.registry.lookup k with _ | a
  · rw [hlk] at h
    simp at h
  · exact ⟨a, rfl⟩

theorem release_eval (st : AppState) (k : String) (sid : Nat) (sg : B64) :
    release_assignment st k sid sg =
      if releaseOk st k sid sg then
        match st.registry.lookup k with
        | some a => (true, { st with
            registry := eraseKey k st.registry
            events := st.events ++ [⟨"delete", a⟩] })
        | none => (false, st)
      else (false, st) := by
  unfold release_assignment releaseOk
  dsimp only
  rcases hlk : st.registry.lookup k with _ | a
  · simp
  · by_cases hsid : a.station_id = sid
    · rcases hpk : parse_public_key_b64 a.owner_public_key with _ | vk
      · simp [hsid, hpk]
      · rcases hps : parse_sig_b64 sg with _ | s
        · simp [hsid, hpk, hps]
        · by_cases hv : verify_bytes vk
            (canonicalize_release_bytes "release" k (toString sid)) s = true
          · simp [hsid, hpk, hps, hv, hlk]
          · simp only [if_pos hsid, hpk, hps, Bool.not_eq_true] at *
            simp [hsid, hv]
    · simp [hsid]

/-! ## Claim theorems -/

/-- Claim C5: `release_assignment` removes the entry, emits a delete event
and returns `true` exactly when an entry exists at the key with matching
station id and the signature verifies over the canonical release bytes
under the current entry's owner public key; on every other input it
returns `false` and leaves the state unchanged with no event emitted. -/
theorem spec_C5 (st : AppState) (k : String) (sid : Nat) (sg : B64) :
    ((release_assignment st k sid sg).1 = true ↔ releaseOk st k sid sg = true) ∧
    (∀ a, st.registry.lookup k = some a → releaseOk st k sid sg = true →
      release_assignment st k sid sg =
        (true, { st with
                 registry := eraseKey k st.registry
                 events := st.events ++ [⟨"delete", a⟩] })) ∧
    (releaseOk st k sid sg = false →
      release_assignment st k sid sg = (false, st)) := by
  refine ⟨⟨?_, ?_⟩, ?_, ?_⟩
  · intro h1
    by_contra ho
    have ho2 : releaseOk st k sid sg = false := by
      simpa using ho
    rw [release_eval, if_neg (by simp [ho2])] at h1
    simp at h1
  · intro ho
    obtain ⟨a, hlk⟩ := releaseOk_lookup ho
    rw [release_eval, if_pos ho, hlk]
  · intro a hlk ho
    rw [release_eval, if_pos ho, hlk]
  · intro ho
    rw [release_eval, if_neg (by simp [ho])]

/-- Claim C6: `snapshot_registry` returns exactly the registry entries with
`expires_at > now`; `expire_assignments` removes every entry with
`expires_at ≤ now`, emits one delete event per removed entry, and leaves
all other entries (and the rest of the state) unchanged. -/
theorem spec_C6 (st : AppState) (now : Int)
    (hnd : (st.registry.map Prod.fst).Nodup) :
    (expire_assignments st now).registry =
      st.registry.filter (fun p => ¬ p.2.expires_at ≤ now) ∧
    (expire_assignments st now).events =
      st.events ++ (st.registry.filter (fun p => p.2.expires_at ≤ now)).map
        (fun p => ⟨"delete", p.2⟩) ∧
    (expire_assignments st now).seen_messages = st.seen_messages ∧
    (∀ a, a ∈ snapshot_registry st now ↔
      ∃ k, (k, a) ∈ st.registry ∧ now < a.expires_at) := by
  obtain ⟨mx, reg, sn, ev⟩ := st
  have hmain := foldl_expire_main now reg mx sn ev hnd
  refine ⟨?_, ?_, ?_, ?_⟩
  · show (List.foldl expireStep ⟨mx, reg, sn, ev⟩
        ((reg.filter (fun p => p.2.expires_at ≤ now)).map Prod.fst)).registry = _
    rw [hmain]
  · show (List.foldl expireStep ⟨mx, reg, sn, ev⟩
        ((reg.filter (fun p => p.2.expires_at ≤ now)).map Prod.fst)).events = _
    rw [hmain]
  · show (List.foldl expireStep ⟨mx, reg, sn, ev⟩
        ((reg.filter (fun p => p.2.expires_at ≤ now)).map Prod.fst)).seen_messages = _
    rw [hmain]
  · intro a
    unfold snapshot_registry
    constructor
    · intro hm
      obtain ⟨p, hp, he⟩ := List.mem_map.mp hm
      rw [List.mem_filter] at hp
      obtain ⟨k, b⟩ := p
      simp only at he
      subst he
      exact ⟨k, hp.1, by simpa using hp.2⟩
    · rintro ⟨k, hk, hexp⟩
      apply List.mem_map.mpr
      refine ⟨(k, a), ?_, rfl⟩
      rw [List.mem_filter]
      exact ⟨hk, by simpa using hexp⟩

/-- Claim C8: `import_assignment` stores the incoming row unconditionally
under the normalized key, replacing any existing entry regardless of owner
or station (last-writer-wins), emits exactly one upsert event carrying the
imported assignment, and performs no verification (it never touches
`seen_messages`, and its result does not depend on any signature). -/
theorem spec_C8 (st : AppState) (a : StationAssignment) :
    (import_assignment st a).registry =
      mapInsert (normalize_frequency_key a.frequency) a st.registry ∧
    (import_assignment st a).registry.lookup
      (normalize_frequency_key a.frequency) = some a ∧
    (∀ k, k ≠ normalize_frequency_key a.frequency →
      (import_assignment st a).registry.lookup k = st.registry.lookup k) ∧
    (import_assignment st a).events = st.events ++ [⟨"upsert", a⟩] ∧
    (import_assignment st a).seen_messages = st.seen_messages ∧
    (import_assignment st a).max_frequencies_per_owner =
      st.max_frequencies_per_owner := by
  rw [import_eq]
  refine ⟨rfl, ?_, ?_, rfl, rfl, rfl⟩
  · show (mapInsert (normalize_frequency_key a.frequency) a st.registry).lookup
      (normalize_frequency_key a.frequency) = some a
    exact lookup_mapInsert_self _ _ _
  · intro k hk
    show (mapInsert (normalize_frequency_key a.frequency) a st.registry).lookup k =
      st.registry.lookup k
    exact lookup_mapInsert_ne hk

/-- Claim C9: `canonicalize_ad_bytes` produces exactly the UTF-8 bytes of
the spec's template with the given values substituted and no other
characters, and signing any message with a keypair verifies under the
matching public key. -/
theorem spec_C9 (ns key sid url ts : String) (ttl : Nat) (k : VerifyingKey)
    (m : String) :
    canonicalize_ad_bytes ns key sid url ts ttl =
      specCanonicalAd ns key sid url ts ttl ∧
    verify_bytes k m (sign_bytes k m) = true := by
  refine ⟨rfl, ?_⟩
  simp [verify_bytes, sign_bytes]

/-- Claim C2: starting from an empty registry, any sequence of
`accept_advertisement` / `release_assignment` / `expire_assignments` calls
keeps every owner's entry count at or below `max_frequencies_per_owner`;
and an otherwise-valid advertisement for an empty slot by an owner at the
cap is rejected with `OwnerCapExceeded`. -/
theorem spec_C2 (maxOwner : Nat) (ops : List Op) (h1 : 1 ≤ maxOwner)
    (hops : ∀ op ∈ ops, op.noImport) :
    (∀ o, countOwner o (run (AppState.new maxOwner) ops).registry ≤ maxOwner) ∧
    (∀ (st : AppState) (now : Int) (ad : StationAdvertisement)
      (vk : VerifyingKey) (sg : Signature),
      st.registry.lookup (normalize_frequency_key ad.frequency) = none →
      parse_public_key_b64 ad.owner_public_key = some vk →
      parse_sig_b64 ad.signature = some sg →
      verify_bytes vk (canonicalize_ad_bytes "advertise"
        (normalize_frequency_key ad.frequency) (toString ad.station_id)
        ad.stream_url (rfc3339 ad.advertised_at) ad.ttl_seconds) sg = true →
      countOwner ad.owner_public_key st.registry ≥
        st.max_frequencies_per_owner →
      (accept_advertisement st now ad).1 = .error .OwnerCapExceeded) := by
  constructor
  · intro o
    have hinv : RegInv (AppState.new maxOwner) := by
      constructor
      · exact List.nodup_nil
      · intro k
        show countOwner k [] ≤ maxOwner
        simp [countOwner]
    have hrun := run_preserves_RegInv ops (AppState.new maxOwner) hinv hops
    have hm := run_max ops (AppState.new maxOwner)
    have := hrun.2 o
    rw [hm] at this
    exact this
  · intro st now ad vk sg hlk hpk hsg hver hcap
    rw [accept_eq]
    by_cases hc : st.seen_messages.contains ad.message_id
    · rw [if_pos hc, hlk, acceptChecked_cap hpk hsg hver hlk hcap]
    · rw [if_neg hc, @acceptChecked_cap { st with
        seen_messages := ad.message_id :: st.seen_messages } now ad
        (normalize_frequency_key ad.frequency) vk sg hpk hsg hver hlk hcap]

/-- Claim C10 (implicit): `import_assignment` bypasses the owner cap — a
sequence containing imports can leave an owner with strictly more entries
than `max_frequencies_per_owner` — while sequences of
`accept_advertisement` alone never can. -/
theorem spec_C10 :
    (countOwner (B64.key 1)
        (run (AppState.new 1) [Op.importOp impA, Op.importOp impB]).registry = 2 ∧
      (run (AppState.new 1)
        [Op.importOp impA, Op.importOp impB]).max_frequencies_per_owner = 1) ∧
    (∀ (maxOwner : Nat) (ops : List Op), (∀ op ∈ ops, op.isAccept) →
      ∀ o, countOwner o (run (AppState.new maxOwner) ops).registry ≤ maxOwner) := by
  constructor
  · exact ⟨by decide, by decide⟩
  · intro maxOwner ops hops o
    have hni : ∀ op ∈ ops, op.noImport := by
      intro op hop
      have := hops op hop
      cases op with
      | accept now ad => exact trivial
      | release k sid sg => exact trivial
      | expire now => exact trivial
      | importOp a => exact absurd this (by simp [Op.isAccept])
    have hinv : RegInv (AppState.new maxOwner) := by
      constructor
      · exact List.nodup_nil
      · intro k
        show countOwner k [] ≤ maxOwner
        simp [countOwner]
    have hrun := run_preserves_RegInv ops (AppState.new maxOwner) hinv hni
    have hm := run_max ops (AppState.new maxOwner)
    have := hrun.2 o
    rw [hm] at this
    exact this

/-- Claim C1 (amended): a successful fresh `accept_advertisement` makes
replaying the same advertisement a no-op — the second call returns the same
assignment and the identical state, the registry holds exactly one entry
for the key, and exactly one upsert event has been emitted.  (As stated the
claim is false: once the entry is released, re-presenting the same
message id falls through to full processing and mutates the registry; see
the counterexample.) -/
theorem spec_C1_amended {st st1 : AppState} {now now' : Int}
    {ad : StationAdvertisement} {a : StationAssignment}
    (hfresh : st.seen_messages.contains ad.message_id = false)
    (hok : accept_advertisement st now ad = (.ok a, st1)) :
    accept_advertisement st1 now' ad = (.ok a, st1) ∧
    (st1.registry.filter
      (fun p => p.1 = normalize_frequency_key ad.frequency)).length = 1 ∧
    st1.events = st.events ++ [⟨"upsert", a⟩] := by
  obtain ⟨ha, hreg, hseen, hev, hmax, hsecond⟩ := accept_replay hfresh hok
  refine ⟨hsecond now', ?_, by rw [hev, ha]⟩
  rw [hreg]
  unfold mapInsert
  rw [List.filter_cons_of_pos (by simp)]
  have hnil : (eraseKey (normalize_frequency_key ad.frequency) st.registry).filter
      (fun p => p.1 = normalize_frequency_key ad.frequency) = [] := by
    rw [List.filter_eq_nil_iff]
    intro p hp
    unfold eraseKey at hp
    rw [List.mem_filter] at hp
    simpa using hp.2
  rw [hnil]
  rfl

/-- Claim C1, counterexample to the claim as stated: after `adEx` is
accepted and then released, presenting the very same advertisement (same
message id) again re-verifies and re-inserts the entry — a state change
caused by re-presentation of an already-accepted message id. -/
theorem spec_C1_counterexample :
    (accept_advertisement (AppState.new 3) 0 adEx).1 =
      .ok (mkAssignment 0 adEx) ∧
    (release_assignment (accept_advertisement (AppState.new 3) 0 adEx).2
      "100.5" 1 relSigEx).1 = true ∧
    (accept_advertisement
        (release_assignment (accept_advertisement (AppState.new 3) 0 adEx).2
          "100.5" 1 relSigEx).2 0 adEx).2.registry ≠
      (release_assignment (accept_advertisement (AppState.new 3) 0 adEx).2
        "100.5" 1 relSigEx).2.registry := by
  refine ⟨?_, ?_, ?_⟩ <;> decide

/-- Claim C4 (amended): for a fresh, correctly signed advertisement whose
normalized key is already held by a different station, `accept_advertisement`
returns `FrequencyConflict` with the key and the holder's station id; if the
station matches but the owner key differs it returns `OwnerMismatch`.  In
both cases the registry and the event log are untouched, but — contrary to
the claim's "no state change" — the message id has still been recorded in
`seen_messages`. -/
theorem spec_C4_amended {st : AppState} {now : Int} {ad : StationAdvertisement}
    {vk : VerifyingKey} {sg : Signature} {ex : StationAssignment}
    (hfresh : st.seen_messages.contains ad.message_id = false)
    (hpk : parse_public_key_b64 ad.owner_public_key = some vk)
    (hsg : parse_sig_b64 ad.signature = some sg)
    (hver : verify_bytes vk (canonicalize_ad_bytes "advertise"
      (normalize_frequency_key ad.frequency) (toString ad.station_id)
      ad.stream_url (rfc3339 ad.advertised_at) ad.ttl_seconds) sg = true)
    (hlk : st.registry.lookup (normalize_frequency_key ad.frequency) = some ex) :
    (ex.station_id ≠ ad.station_id →
      accept_advertisement st now ad =
        (.error (.FrequencyConflict (normalize_frequency_key ad.frequency)
          ex.station_id),
         { st with seen_messages := ad.message_id :: st.seen_messages })) ∧
    (ex.station_id = ad.station_id → ex.owner_public_key ≠ ad.owner_public_key →
      accept_advertisement st now ad =
        (.error .OwnerMismatch,
         { st with seen_messages := ad.message_id :: st.seen_messages })) := by
  constructor
  · intro hstation
    rw [accept_eq, if_neg (by rw [hfresh]; simp)]
    exact @acceptChecked_conflict { st with
      seen_messages := ad.message_id :: st.seen_messages } now ad
      (normalize_frequency_key ad.frequency) vk sg ex hpk hsg hver hlk hstation
  · intro hstation howner
    rw [accept_eq, if_neg (by rw [hfresh]; simp)]
    exact @acceptChecked_mismatch { st with
      seen_messages := ad.message_id :: st.seen_messages } now ad
      (normalize_frequency_key ad.frequency) vk sg ex hpk hsg hver hlk
      hstation howner

/-- Claim C4, counterexample to the claim as stated: a conflicting
advertisement is rejected with `FrequencyConflict`, yet the call does
change state — the rejected advertisement's message id is added to
`seen_messages`. -/
theorem spec_C4_counterexample :
    (accept_advertisement (accept_advertisement (AppState.new 3) 0 adEx).2
      0 adConf).1 = .error (.FrequencyConflict "100.5" 1) ∧
    (accept_advertisement (accept_advertisement (AppState.new 3) 0 adEx).2
      0 adConf).2.seen_messages ≠
      (accept_advertisement (AppState.new 3) 0 adEx).2.seen_messages := by
  refine ⟨?_, ?_⟩ <;> decide

/-- Claim C7 (amended): the message id is added to `seen_messages` during
the dedup step at the very start of `accept_advertisement` — before
signature verification — so it is recorded even for rejected
advertisements; a duplicate message id returns the current assignment for
the key when one exists, and otherwise falls through to full processing. -/
theorem spec_C7_amended (st : AppState) (now : Int) (ad : StationAdvertisement) :
    ((accept_advertisement st now ad).2.seen_messages =
      if st.seen_messages.contains ad.message_id then st.seen_messages
      else ad.message_id :: st.seen_messages) ∧
    (∀ a, st.seen_messages.contains ad.message_id = true →
      st.registry.lookup (normalize_frequency_key ad.frequency) = some a →
      accept_advertisement st now ad = (.ok a, st)) ∧
    (st.seen_messages.contains ad.message_id = true →
      st.registry.lookup (normalize_frequency_key ad.frequency) = none →
      accept_advertisement st now ad =
        acceptChecked st now ad (normalize_frequency_key ad.frequency)) := by
  refine ⟨?_, ?_, ?_⟩
  · rw [accept_eq]
    by_cases hc : st.seen_messages.contains ad.message_id
    · rw [if_pos hc, if_pos hc]
      rcases hlk : st.registry.lookup (normalize_frequency_key ad.frequency)
        with _ | ex
      · exact acceptChecked_seen st now ad _
      · rfl
    · rw [if_neg hc, if_neg hc]
      exact acceptChecked_seen _ now ad _
  · intro a hc hlk
    rw [accept_eq, if_pos hc, hlk]
  · intro hc hlk
    rw [accept_eq, if_pos hc, hlk]

/-- Claim C7, counterexample to the claim as stated: an advertisement
rejected with `InvalidSignature` does not leave `seen_messages` unchanged —
its message id is recorded anyway, because the code inserts it during the
dedup step, not as a final step after success. -/
theorem spec_C7_counterexample :
    (accept_advertisement (AppState.new 3) 0 adBad).1 =
      .error .InvalidSignature ∧
    (accept_advertisement (AppState.new 3) 0 adBad).2.seen_messages ≠
      (AppState.new 3).seen_messages := by
  refine ⟨?_, ?_⟩ <;> decide

/-- Claim C3 (amended): `normalize_frequency_key` is total, produces no
leading `+`, no trailing zeros after a decimal point, no trailing dot,
never the string `-0`, no decimal point for integer values, and — for
decimals with nonnegative scale, i.e. all values parsed from plain decimal
strings without positive exponents — two decimals normalize to the same
key exactly when they represent the same rational value.  (As claimed, for
*every* pair of decimals, the equivalence fails: a zero with negative
scale renders with padded zeros; see the counterexample.) -/
theorem spec_C3_amended (d1 d2 : BigDecimal) (h1 : 0 ≤ d1.scale)
    (h2 : 0 ≤ d2.scale) :
    (normalize_frequency_key d1 = normalize_frequency_key d2 ↔
      d1.val = d2.val) ∧
    '+' ∉ (normalize_frequency_key d1).data ∧
    ('.' ∈ (normalize_frequency_key d1).data →
      (normalize_frequency_key d1).data.getLast? ≠ some '0' ∧
      (normalize_frequency_key d1).data.getLast? ≠ some '.') ∧
    normalize_frequency_key d1 ≠ "-0" ∧
    (d1.val.den = 1 → '.' ∉ (normalize_frequency_key d1).data) := by
  refine ⟨⟨?_, ?_⟩, ?_, ?_, ?_, ?_⟩
  · intro h
    have hdata : normalizeChars d1.toChars = normalizeChars d2.toChars :=
      congrArg String.data h
    exact val_eq_of_normalizeChars_eq h1 h2 hdata
  · intro h
    unfold normalize_frequency_key
    rw [normalizeChars_eq_of_val_eq h h1 h2]
  · exact plus_not_mem_normalizeChars d1
  · exact fun hdot => norm_ends h1 hdot
  · intro he
    have hdata : normalizeChars d1.toChars = ['-', '0'] := by
      have := congrArg String.data he
      exact this
    exact normalizeChars_ne_neg_zero d1.toChars hdata
  · exact fun hden => norm_no_dot_of_int h1 hden

/-- Claim C3, counterexample to the claim as stated: the decimals `0e1`
(unscaled 0, scale −1) and `0` denote the same rational value yet
normalize to the different keys `00` and `0`, because trailing zeros are
only trimmed after a decimal point. -/
theorem spec_C3_counterexample :
    BigDecimal.val ⟨0, -1⟩ = BigDecimal.val ⟨0, 0⟩ ∧
    normalize_frequency_key ⟨0, -1⟩ ≠ normalize_frequency_key ⟨0, 0⟩ := by
  constructor
  · simp [BigDecimal.val]
  · decide

/-! ## Witnesses -/

/-- Witness for C1: the amended claim evaluated on the concrete `adEx`. -/
theorem spec_C1_witness :
    accept_advertisement (accept_advertisement (AppState.new 3) 0 adEx).2 5 adEx =
      (.ok (mkAssignment 0 adEx), (accept_advertisement (AppState.new 3) 0 adEx).2) ∧
    ((accept_advertisement (AppState.new 3) 0 adEx).2.registry.filter
      (fun p => p.1 = normalize_frequency_key adEx.frequency)).length = 1 ∧
    (accept_advertisement (AppState.new 3) 0 adEx).2.events =
      (AppState.new 3).events ++ [⟨"upsert", mkAssignment 0 adEx⟩] :=
  spec_C1_amended (by decide)
    (Prod.ext (by decide) rfl)

/-- Witness for C2 at concrete inputs: the cap holds after the empty
sequence, and the capped owner's extra advertisement is rejected. -/
theorem spec_C2_witness :
    countOwner (B64.key 1) (run (AppState.new 1) []).registry ≤ 1 ∧
    (accept_advertisement stFull 0 adCap).1 = .error .OwnerCapExceeded :=
  ⟨(spec_C2 1 [] (by norm_num) (by simp)).1 (B64.key 1),
    (spec_C2 1 [] (by norm_num) (by simp)).2 stFull 0 adCap 1
      (1, canonicalize_ad_bytes "advertise" (normalize_frequency_key ⟨91, 0⟩)
        "6" "http-t" (rfc3339 0) 30)
      (by decide) (by decide) (by decide) (by decide) (by decide)⟩

/-- Witness for C3: the amended equivalence evaluated on the concrete
renderings of 100.5 and 100.50. -/
theorem spec_C3_witness :
    (normalize_frequency_key ⟨1005, 1⟩ = normalize_frequency_key ⟨10050, 2⟩ ↔
      BigDecimal.val ⟨1005, 1⟩ = BigDecimal.val ⟨10050, 2⟩) ∧
    '+' ∉ (normalize_frequency_key ⟨1005, 1⟩).data ∧
    ('.' ∈ (normalize_frequency_key ⟨1005, 1⟩).data →
      (normalize_frequency_key ⟨1005, 1⟩).data.getLast? ≠ some '0' ∧
      (normalize_frequency_key ⟨1005, 1⟩).data.getLast? ≠ some '.') ∧
    normalize_frequency_key ⟨1005, 1⟩ ≠ "-0" ∧
    ((BigDecimal.val ⟨1005, 1⟩).den = 1 →
      '.' ∉ (normalize_frequency_key ⟨1005, 1⟩).data) :=
  spec_C3_amended ⟨1005, 1⟩ ⟨10050, 2⟩ (by decide) (by decide)

/-- Witness for C4: the amended conflict branch evaluated on `adConf`
against the state holding `adEx`'s assignment. -/
theorem spec_C4_witness :
    accept_advertisement (accept_advertisement (AppState.new 3) 0 adEx).2
        0 adConf =
      (.error (.FrequencyConflict (normalize_frequency_key adConf.frequency)
        (mkAssignment 0 adEx).station_id),
       { (accept_advertisement (AppState.new 3) 0 adEx).2 with
         seen_messages := adConf.message_id ::
           (accept_advertisement (AppState.new 3) 0 adEx).2.seen_messages }) :=
  (@spec_C4_amended (accept_advertisement (AppState.new 3) 0 adEx).2 0 adConf
    2 (2, canonicalize_ad_bytes "advertise" (normalize_frequency_key ⟨1005, 1⟩)
      "2" "http-c" (rfc3339 0) 30) (mkAssignment 0 adEx)
    (by decide) (by decide) (by decide) (by decide) (by decide)).1 (by decide)

/-- Witness for C5: a valid release of `adEx`'s assignment evaluated
concretely. -/
theorem spec_C5_witness :
    release_assignment (accept_advertisement (AppState.new 3) 0 adEx).2
        "100.5" 1 relSigEx =
      (true, { (accept_advertisement (AppState.new 3) 0 adEx).2 with
        registry := eraseKey "100.5"
          (accept_advertisement (AppState.new 3) 0 adEx).2.registry
        events := (accept_advertisement (AppState.new 3) 0 adEx).2.events ++
          [⟨"delete", mkAssignment 0 adEx⟩] }) :=
  (spec_C5 (accept_advertisement (AppState.new 3) 0 adEx).2 "100.5" 1
    relSigEx).2.1 (mkAssignment 0 adEx) (by decide) (by decide)

/-- Witness for C6: the expiry sweep evaluated on a two-entry registry with
one expired row. -/
theorem spec_C6_witness :
    (expire_assignments stExp 10).registry =
      stExp.registry.filter (fun p => ¬ p.2.expires_at ≤ 10) :=
  (spec_C6 stExp 10 (by decide)).1

/-- Witness for C7: the duplicate-message-id path evaluated on `stDup`. -/
theorem spec_C7_witness :
    accept_advertisement stDup 0 adEx =
      (.ok (asgEx 1 ⟨1005, 1⟩ (B64.key 1) 100), stDup) :=
  (spec_C7_amended stDup 0 adEx).2.1 (asgEx 1 ⟨1005, 1⟩ (B64.key 1) 100)
    (by decide) (by decide)

/-- Witness for C8: importing `impA` leaves unrelated keys untouched. -/
theorem spec_C8_witness :
    (import_assignment (AppState.new 3) impA).registry.lookup "2" =
      (AppState.new 3).registry.lookup "2" :=
  (spec_C8 (AppState.new 3) impA).2.2.1 "2" (by decide)

/-- Witness for C10: the accept-only cap bound evaluated on a singleton
sequence. -/
theorem spec_C10_witness :
    countOwner (B64.key 1) (run (AppState.new 3) [Op.accept 0 adEx]).registry ≤ 3 :=
  spec_C10.2 3 [Op.accept 0 adEx]
    (by
      intro op hop
      rcases List.mem_singleton.mp hop with rfl
      exact trivial)
    (B64.key 1)
